import Mathlib

/-!
Shallow embedding of the solana-sigverify repository.

The development models, at the level of byte lists (`List Nat`, each element
a byte value), the three algorithmic cores of the repository:

* the native signature-verification instruction codec
  (crate `solana-native-sigverify`, file `native-sigverify/src/lib.rs`):
  `new_instruction_data` / `write_instruction_data` (the encoder with
  message and public-key deduplication) and `parse_data` / `decode_entry`
  (the zero-copy decoder);

* the signatures-account store (file `sigverify/src/api.rs`): the
  `Header` with little-endian epoch and count, `read_count`,
  `write_count_and_sort`, `write_signature` and `find_sighash`
  (binary search over sorted 32-byte digests);

* the client-side helpers (file `src/instruction.rs`): the `update`
  instruction-data builder and the `UpdateIter` batching iterator.

Machine integers are modelled as `Nat` with explicit `% 2^w` at the places
the source casts; fallible code returns `Option`/`Except`.
-/

namespace SigVerify

/-! ### Little-endian byte serialisation

Models `u16::to_le_bytes` / `u32::to_le_bytes` / `u64::to_le_bytes` and the
corresponding `from_le_bytes`. -/

/-- `w`-byte little-endian encoding of `v % 256^w`. -/
def toLE : Nat → Nat → List Nat
  | 0, _ => []
  | w + 1, v => v % 256 :: toLE w (v / 256)

/-- Little-endian value of a byte list, least significant byte first. -/
def fromLE : List Nat → Nat
  | [] => 0
  | b :: bs => b + 256 * fromLE bs

@[simp] theorem length_toLE (w v : Nat) : (toLE w v).length = w := by
  induction w generalizing v with
  | zero => rfl
  | succ w ih => simp [toLE, ih]

theorem fromLE_toLE (w v : Nat) : fromLE (toLE w v) = v % 256 ^ w := by
  induction w generalizing v with
  | zero => simp [toLE, fromLE, Nat.mod_one]
  | succ w ih =>
      simp only [toLE, fromLE, ih]
      rw [pow_succ, mul_comm (256 ^ w) 256, Nat.mod_mul]

theorem toLE_inj {w a b : Nat} (ha : a < 256 ^ w) (hb : b < 256 ^ w)
    (h : toLE w a = toLE w b) : a = b := by
  have := congrArg fromLE h
  rwa [fromLE_toLE, fromLE_toLE, Nat.mod_eq_of_lt ha, Nat.mod_eq_of_lt hb] at this

theorem toLE_lt (w v : Nat) : ∀ b ∈ toLE w v, b < 256 := by
  induction w generalizing v with
  | zero => simp [toLE]
  | succ w ih =>
      intro b hb
      simp only [toLE, List.mem_cons] at hb
      rcases hb with h | h
      · omega
      · exact ih _ b h

/-! ### Chunking (model of `stdx::as_chunks`)

`stdx::as_chunks::<N>(slice)` splits a slice into `slice.len() / N`
complete `N`-element chunks plus the remainder.  We model it with an
explicit fuel argument so the definition is structurally recursive and
kernel-computable. -/

/-- Fuel-driven worker for `asChunks`. -/
def asChunksGo (n : Nat) : Nat → List Nat → List (List Nat) × List Nat
  | 0, l => ([], l)
  | fuel + 1, l =>
      if 0 < n ∧ n ≤ l.length then
        let r := asChunksGo n fuel (l.drop n)
        (l.take n :: r.1, r.2)
      else ([], l)

/-- Model of `stdx::as_chunks::<n>`: complete `n`-byte chunks and remainder. -/
def asChunks (n : Nat) (l : List Nat) : List (List Nat) × List Nat :=
  asChunksGo n l.length l

theorem asChunksGo_fuel (n : Nat) :
    ∀ fuel₁ fuel₂ l, l.length ≤ fuel₁ → l.length ≤ fuel₂ →
      asChunksGo n fuel₁ l = asChunksGo n fuel₂ l := by
  intro fuel₁
  induction fuel₁ with
  | zero =>
      intro fuel₂ l h1 _
      have : l = [] := List.eq_nil_of_length_eq_zero (by omega)
      subst this
      cases fuel₂ with
      | zero => rfl
      | succ f =>
          simp only [asChunksGo]
          rw [if_neg]
          simp only [List.length_nil]
          omega
  | succ f1 ih =>
      intro fuel₂ l h1 h2
      cases fuel₂ with
      | zero =>
          have : l = [] := List.eq_nil_of_length_eq_zero (by omega)
          subst this
          simp only [asChunksGo]
          rw [if_neg]
          simp only [List.length_nil]
          omega
      | succ f2 =>
          simp only [asChunksGo]
          by_cases h : 0 < n ∧ n ≤ l.length
          · rw [if_pos h, if_pos h]
            have : (l.drop n).length ≤ f1 := by
              simp only [List.length_drop]; omega
            have h2' : (l.drop n).length ≤ f2 := by
              simp only [List.length_drop]; omega
            rw [ih f2 (l.drop n) this h2']
          · rw [if_neg h, if_neg h]

/-- Unfolding equation for `asChunks`. -/
theorem asChunks_eq (n : Nat) (l : List Nat) :
    asChunks n l =
      if 0 < n ∧ n ≤ l.length then
        ((l.take n) :: (asChunks n (l.drop n)).1, (asChunks n (l.drop n)).2)
      else ([], l) := by
  have h1 : asChunks n l = asChunksGo n (l.length + 1) l := by
    unfold asChunks
    exact asChunksGo_fuel n l.length (l.length + 1) l (le_refl _) (by omega)
  rw [h1]
  simp only [asChunksGo]
  by_cases h : 0 < n ∧ n ≤ l.length
  · rw [if_pos h, if_pos h]
    have hd : (l.drop n).length ≤ l.length := by simp [List.length_drop]
    unfold asChunks
    rw [asChunksGo_fuel n l.length (l.drop n).length (l.drop n) hd (le_refl _)]
  · rw [if_neg h, if_neg h]

theorem asChunks_join_aux (n : Nat) :
    ∀ (fuel : Nat) (l : List Nat), l.length ≤ fuel →
      (asChunks n l).1.flatten ++ (asChunks n l).2 = l := by
  intro fuel
  induction fuel with
  | zero =>
      intro l hl
      have : l = [] := List.eq_nil_of_length_eq_zero (by omega)
      subst this
      rw [asChunks_eq, if_neg (by intro hh; simp at hh; omega)]
      simp
  | succ f ih =>
      intro l hl
      rw [asChunks_eq]
      by_cases h : 0 < n ∧ n ≤ l.length
      · rw [if_pos h]
        simp only [List.flatten_cons, List.append_assoc]
        rw [ih (l.drop n) (by simp only [List.length_drop]; omega)]
        exact List.take_append_drop n l
      · rw [if_neg h]; simp

theorem asChunks_join (n : Nat) (l : List Nat) :
    (asChunks n l).1.flatten ++ (asChunks n l).2 = l :=
  asChunks_join_aux n l.length l (le_refl _)

theorem asChunks_length_aux (n : Nat) (hn : 0 < n) :
    ∀ (fuel : Nat) (l : List Nat), l.length ≤ fuel →
      (asChunks n l).1.length = l.length / n := by
  intro fuel
  induction fuel with
  | zero =>
      intro l hl
      have : l = [] := List.eq_nil_of_length_eq_zero (by omega)
      subst this
      rw [asChunks_eq, if_neg (by intro hh; simp at hh; omega)]
      simp [Nat.zero_div]
  | succ f ih =>
      intro l hl
      rw [asChunks_eq]
      by_cases h : 0 < n ∧ n ≤ l.length
      · rw [if_pos h]
        simp only [List.length_cons]
        rw [ih (l.drop n) (by simp only [List.length_drop]; omega)]
        rw [List.length_drop]
        rw [Nat.div_eq l.length n, if_pos h]
      · rw [if_neg h]
        simp only [List.length_nil]
        rw [Nat.div_eq l.length n, if_neg h]

theorem asChunks_length (n : Nat) (l : List Nat) (hn : 0 < n) :
    (asChunks n l).1.length = l.length / n :=
  asChunks_length_aux n hn l.length l (le_refl _)

theorem asChunks_mem_length_aux (n : Nat) :
    ∀ (fuel : Nat) (l : List Nat), l.length ≤ fuel →
      ∀ c ∈ (asChunks n l).1, c.length = n := by
  intro fuel
  induction fuel with
  | zero =>
      intro l hl c hc
      have : l = [] := List.eq_nil_of_length_eq_zero (by omega)
      subst this
      rw [asChunks_eq, if_neg (by intro hh; simp at hh; omega)] at hc
      simp at hc
  | succ f ih =>
      intro l hl c hc
      rw [asChunks_eq] at hc
      by_cases h : 0 < n ∧ n ≤ l.length
      · rw [if_pos h] at hc
        rcases List.mem_cons.mp hc with h1 | h1
        · subst h1; simp only [List.length_take]; omega
        · exact ih (l.drop n) (by simp only [List.length_drop]; omega) c h1
      · rw [if_neg h] at hc; simp at hc

theorem asChunks_mem_length (n : Nat) (l : List Nat) :
    ∀ c ∈ (asChunks n l).1, c.length = n :=
  asChunks_mem_length_aux n l.length l (le_refl _)

/-- Chunking a concatenation of complete `n`-blocks followed by extra data
yields exactly those blocks followed by the chunks of the extra data. -/
theorem asChunks_blocks (n : Nat) (hn : 0 < n) (blocks : List (List Nat))
    (hb : ∀ b ∈ blocks, b.length = n) (extra : List Nat) :
    asChunks n (blocks.flatten ++ extra) =
      (blocks ++ (asChunks n extra).1, (asChunks n extra).2) := by
  induction blocks with
  | nil => simp
  | cons b bs ih =>
      have hbl : b.length = n := hb b (by simp)
      have hbs : ∀ x ∈ bs, x.length = n := fun x hx => hb x (by simp [hx])
      rw [List.flatten_cons, List.append_assoc, asChunks_eq]
      have hlen : n ≤ (b ++ (bs.flatten ++ extra)).length := by
        simp [List.length_append, hbl]
      rw [if_pos ⟨hn, hlen⟩]
      rw [List.take_append_of_le_length (by omega), List.drop_append_of_le_length (by omega)]
      rw [List.take_of_length_le (by omega), List.drop_eq_nil_of_le (by omega)]
      simp only [List.nil_append]
      rw [ih hbs]
      simp [hbl]

theorem asChunks_get (n : Nat) (hn : 0 < n) (l : List Nat) (i : Nat) :
    (asChunks n l).1.get? i =
      if n * i + n ≤ l.length then some ((l.drop (n * i)).take n) else none := by
  induction i generalizing l with
  | zero =>
      rw [asChunks_eq]
      by_cases h : n ≤ l.length
      · rw [if_pos ⟨hn, h⟩]
        simp only [List.get?_cons_zero, Nat.mul_zero, Nat.zero_add, List.drop_zero]
        rw [if_pos (by omega)]
      · rw [if_neg (by omega), if_neg (by omega)]
        simp
  | succ i ih =>
      rw [asChunks_eq]
      by_cases h : n ≤ l.length
      · rw [if_pos ⟨hn, h⟩]
        simp only [List.get?_cons_succ]
        rw [ih (l.drop n)]
        simp only [List.length_drop, List.drop_drop]
        rw [Nat.mul_succ]
        by_cases h2 : n * i + n ≤ l.length - n
        · have h3 : n * i + n + n ≤ l.length := by omega
          rw [if_pos h2, if_pos h3, Nat.add_comm n (n * i)]
        · have h3 : ¬(n * i + n + n ≤ l.length) := by omega
          rw [if_neg h2, if_neg h3]
      · rw [if_neg (by omega), if_neg (by omega)]
        simp

/-! ### Byte-string comparison

Models the `Ord` instance Rust derives for byte slices/arrays:
lexicographic comparison, element by element.  For the equal-length
32-byte digests stored in the signatures account the length tie-break
never triggers. -/

/-- Lexicographic three-way comparison of byte lists. -/
def cmpBytes : List Nat → List Nat → Ordering
  | [], [] => .eq
  | [], _ :: _ => .lt
  | _ :: _, [] => .gt
  | x :: xs, y :: ys =>
      if x < y then .lt else if y < x then .gt else cmpBytes xs ys

theorem cmpBytes_eq_iff : ∀ {a b : List Nat}, cmpBytes a b = .eq ↔ a = b
  | [], [] => by simp [cmpBytes]
  | [], _ :: _ => by simp [cmpBytes]
  | _ :: _, [] => by simp [cmpBytes]
  | x :: xs, y :: ys => by
      simp only [cmpBytes]
      split_ifs with h1 h2
      · constructor
        · intro h; cases h
        · intro h; injection h; omega
      · constructor
        · intro h; cases h
        · intro h; injection h; omega
      · have hxy : x = y := by omega
        subst hxy
        rw [cmpBytes_eq_iff]
        simp

theorem cmpBytes_swap : ∀ (a b : List Nat), cmpBytes b a = (cmpBytes a b).swap
  | [], [] => by simp [cmpBytes, Ordering.swap]
  | [], _ :: _ => by simp [cmpBytes, Ordering.swap]
  | _ :: _, [] => by simp [cmpBytes, Ordering.swap]
  | x :: xs, y :: ys => by
      simp only [cmpBytes]
      split_ifs with h1 h2 h3 h4 h5 h6 <;>
        simp_all [Ordering.swap] <;>
        first
          | omega
          | exact cmpBytes_swap xs ys

theorem cmpBytes_lt_trans : ∀ {a b c : List Nat},
    cmpBytes a b = .lt → cmpBytes b c = .lt → cmpBytes a c = .lt
  | [], b, c, h1, h2 => by
      cases b with
      | nil => simp [cmpBytes] at h1
      | cons y ys =>
          cases c with
          | nil => simp [cmpBytes] at h2
          | cons z zs => simp [cmpBytes]
  | _ :: _, [], c, h1, _ => by simp [cmpBytes] at h1
  | x :: xs, y :: ys, c, h1, h2 => by
      cases c with
      | nil => simp [cmpBytes] at h2
      | cons z zs =>
          simp only [cmpBytes] at h1 h2 ⊢
          split_ifs at h1 h2 ⊢ <;>
            first
              | rfl
              | omega
              | (exact cmpBytes_lt_trans h1 h2)
              | simp_all

/-- The non-strict order used to model `sort_unstable` on digests. -/
def bleP (a b : List Nat) : Prop := cmpBytes a b ≠ .gt

instance : DecidableRel bleP := fun a b => by
  unfold bleP
  infer_instance

theorem bleP_iff {a b : List Nat} :
    bleP a b ↔ cmpBytes a b = .lt ∨ a = b := by
  unfold bleP
  rcases h : cmpBytes a b with _ | _ | _ <;> simp_all [cmpBytes_eq_iff.symm]

instance : IsTotal (List Nat) bleP where
  total a b := by
    unfold bleP
    rw [cmpBytes_swap a b]
    rcases cmpBytes a b <;> simp [Ordering.swap]

instance : IsTrans (List Nat) bleP where
  trans a b c hab hbc := by
    rcases bleP_iff.mp hab with h1 | h1 <;> rcases bleP_iff.mp hbc with h2 | h2
    · exact bleP_iff.mpr (Or.inl (cmpBytes_lt_trans h1 h2))
    · subst h2; exact hab
    · subst h1; exact hbc
    · subst h1; exact hbc

theorem cmpBytes_lt_of_le_of_lt {a b c : List Nat}
    (h1 : bleP a b) (h2 : cmpBytes b c = .lt) : cmpBytes a c = .lt := by
  rcases bleP_iff.mp h1 with h | h
  · exact cmpBytes_lt_trans h h2
  · subst h; exact h2

theorem cmpBytes_gt_iff {a b : List Nat} :
    cmpBytes a b = .gt ↔ cmpBytes b a = .lt := by
  rw [cmpBytes_swap a b]
  rcases cmpBytes a b <;> simp [Ordering.swap]

theorem cmpBytes_gt_of_le_of_gt {a b c : List Nat}
    (h1 : bleP b a) (h2 : cmpBytes b c = .gt) : cmpBytes a c = .gt := by
  rw [cmpBytes_gt_iff] at h2 ⊢
  rcases bleP_iff.mp h1 with h | h
  · exact cmpBytes_lt_trans h2 h
  · subst h; exact h2

/-! ### Signatures account store (model of `sigverify/src/api.rs`)

The account data is a byte list: a 12-byte header (`epoch: u64 LE` at
offset 0, `count: u32 LE` at offset 8) followed by 32-byte digest slots.
-/

/-- `size_of::<Header>()`. -/
def HEAD_SIZE : Nat := 12

/-- `size_of::<SigHash>()`. -/
def SIG_SIZE : Nat := 32

/-- Model of the errors of `solana_program::program_error::ProgramError`
used by the store and the instruction builders. -/
inductive ProgramError where
  | AccountDataTooSmall
  | InvalidAccountData
  | ArithmeticOverflow
  | MaxSeedLengthExceeded
deriving DecidableEq, Repr

instance {e a : Type} [DecidableEq e] [DecidableEq a] : DecidableEq (Except e a) := fun x y =>
  match x, y with
  | .ok x, .ok y =>
      if h : x = y then .isTrue (by rw [h]) else
        .isFalse (fun hh => h (by injection hh))
  | .error x, .error y =>
      if h : x = y then .isTrue (by rw [h]) else
        .isFalse (fun hh => h (by injection hh))
  | .ok _, .error _ => .isFalse (fun hh => by injection hh)
  | .error _, .ok _ => .isFalse (fun hh => by injection hh)

/-- `Header::count`: little-endian `u32` at byte offset 8 of the header. -/
def headerCount (head : List Nat) : Nat := fromLE ((head.drop 8).take 4)

/-- The stored epoch: little-endian `u64` at byte offset 0 of the header. -/
def headerEpoch (head : List Nat) : Nat := fromLE (head.take 8)

/-- `Header::get_count`: zero when a wanted epoch is given and differs
from the stored one, the stored count otherwise. -/
def headerGetCount (head : List Nat) (wantEpoch : Option Nat) : Nat :=
  match wantEpoch with
  | some want => if want ≠ headerEpoch head then 0 else headerCount head
  | none => headerCount head

/-- `Header::set`: overwrite the count and, when given, the epoch. -/
def headerSet (head : List Nat) (epoch : Option Nat) (count : Nat) : List Nat :=
  (match epoch with
   | some e => toLE 8 e
   | none => head.take 8) ++ toLE 4 count

/-- `SignaturesAccount::read_count`. -/
def read_count (data : List Nat) (wantEpoch : Option Nat) :
    Except ProgramError Nat :=
  if HEAD_SIZE ≤ data.length then
    .ok (headerGetCount (data.take HEAD_SIZE) wantEpoch)
  else .error .AccountDataTooSmall

/-- `SignaturesAccount::write_count_and_sort`: sort the first `count`
32-byte digest slots ascending (`sort_unstable`, modelled by insertion
sort — the sorted permutation is unique for a total antisymmetric order)
and rewrite the header. -/
def write_count_and_sort (data : List Nat) (epoch : Option Nat) (count : Nat) :
    Except ProgramError (List Nat) :=
  if HEAD_SIZE ≤ data.length then
    let head := data.take HEAD_SIZE
    let tail := data.drop HEAD_SIZE
    let chunks := (asChunks SIG_SIZE tail).1
    let rem := (asChunks SIG_SIZE tail).2
    if count ≤ chunks.length then
      let sorted := List.insertionSort bleP (chunks.take count)
      .ok (headerSet head epoch count ++
        (sorted ++ chunks.drop count).flatten ++ rem)
    else .error .AccountDataTooSmall
  else .error .AccountDataTooSmall

/-- `SignaturesAccount::write_signature`: write a 32-byte digest at slot
`index`, first invoking the caller-supplied `enlarge` callback when the
buffer is too short.  The checked offset arithmetic of the source cannot
overflow for a `u32` index on a 64-bit host, so it is modelled as total. -/
def write_signature (data : List Nat) (index : Nat) (sig : List Nat)
    (enlarge : List Nat → Except ProgramError (List Nat)) :
    Except ProgramError (List Nat) := do
  let start := HEAD_SIZE + SIG_SIZE * index
  let stop := start + SIG_SIZE
  let data ← if data.length < stop then enlarge data else .ok data
  if stop ≤ data.length then
    .ok (data.take start ++ sig ++ data.drop stop)
  else .error .AccountDataTooSmall

/-- Fuel-driven worker modelling `slice::binary_search` (returns whether
the search succeeded).  `left`/`right` bracket the still-active range. -/
def bsearchGo (xs : List (List Nat)) (target : List Nat) :
    Nat → Nat → Nat → Bool
  | 0, _, _ => false
  | fuel + 1, left, right =>
      if left < right then
        match cmpBytes (xs.getD (left + (right - left) / 2) []) target with
        | .lt => bsearchGo xs target fuel (left + (right - left) / 2 + 1) right
        | .gt => bsearchGo xs target fuel left (left + (right - left) / 2)
        | .eq => true
      else false

/-- Model of `entries.binary_search(signature).is_ok()`. -/
def bsearch (xs : List (List Nat)) (target : List Nat) : Bool :=
  bsearchGo xs target (xs.length + 1) 0 xs.length

/-- `find_sighash`: split off the header, reinterpret the rest as 32-byte
digest slots, and binary-search the first `count` of them. -/
def find_sighash (data : List Nat) (signature : List Nat) :
    Except ProgramError Bool :=
  if HEAD_SIZE ≤ data.length then
    let count := headerCount (data.take HEAD_SIZE)
    let chunks := (asChunks SIG_SIZE (data.drop HEAD_SIZE)).1
    if count ≤ chunks.length then
      .ok (bsearch (chunks.take count) signature)
    else .error .InvalidAccountData
  else .error .AccountDataTooSmall

/-! ### Binary search correctness -/

theorem bleP_refl (a : List Nat) : bleP a a := bleP_iff.mpr (Or.inr rfl)

theorem bsearchGo_correct (xs : List (List Nat)) (target : List Nat)
    (hs : List.Pairwise bleP xs) :
    ∀ (fuel left right : Nat), right ≤ xs.length → right - left < fuel →
      (bsearchGo xs target fuel left right = true ↔
        ∃ i, left ≤ i ∧ i < right ∧ xs.getD i [] = target) := by
  intro fuel
  induction fuel with
  | zero => intro left right _ h; omega
  | succ f ih =>
      intro left right hr hf
      simp only [bsearchGo]
      by_cases hlr : left < right
      · rw [if_pos hlr]
        have hmlt : left + (right - left) / 2 < right := by omega
        have hmge : left ≤ left + (right - left) / 2 := by omega
        have hmlen : left + (right - left) / 2 < xs.length := by omega
        have hpairle : ∀ i j, i ≤ j → j < xs.length →
            bleP (xs.getD i []) (xs.getD j []) := by
          intro i j hij hj
          rcases Nat.lt_or_ge i j with hc | hc
          · have hi : i < xs.length := by omega
            rw [List.getD_eq_getElem xs [] hi, List.getD_eq_getElem xs [] hj]
            exact List.pairwise_iff_get.mp hs ⟨i, hi⟩ ⟨j, hj⟩ hc
          · have : i = j := by omega
            subst this
            exact bleP_refl _
        rcases hcmp : cmpBytes (xs.getD (left + (right - left) / 2) []) target
          with _ | _ | _
        · -- scrutinee is .lt: the active range shrinks to the upper half
          simp only [hcmp]
          rw [ih (left + (right - left) / 2 + 1) right hr (by omega)]
          constructor
          · rintro ⟨i, h1, h2, h3⟩
            exact ⟨i, by omega, h2, h3⟩
          · rintro ⟨i, h1, h2, h3⟩
            refine ⟨i, ?_, h2, h3⟩
            by_contra hcon
            have hle : bleP (xs.getD i []) (xs.getD (left + (right - left) / 2) []) :=
              hpairle i _ (by omega) hmlen
            have hx : cmpBytes (xs.getD i []) target = .lt :=
              cmpBytes_lt_of_le_of_lt hle hcmp
            rw [h3, cmpBytes_eq_iff.mpr rfl] at hx
            cases hx
        · -- scrutinee is .eq: the element at the probe equals the target
          simp only [hcmp]
          constructor
          · intro _
            exact ⟨left + (right - left) / 2, hmge, hmlt, cmpBytes_eq_iff.mp hcmp⟩
          · intro _
            trivial
        · -- scrutinee is .gt: the active range shrinks to the lower half
          simp only [hcmp]
          rw [ih left (left + (right - left) / 2) (by omega) (by omega)]
          constructor
          · rintro ⟨i, h1, h2, h3⟩
            exact ⟨i, h1, by omega, h3⟩
          · rintro ⟨i, h1, h2, h3⟩
            refine ⟨i, h1, ?_, h3⟩
            by_contra hcon
            have hle : bleP (xs.getD (left + (right - left) / 2) []) (xs.getD i []) :=
              hpairle _ i (by omega) (by omega)
            have hx : cmpBytes (xs.getD i []) target = .gt :=
              cmpBytes_gt_of_le_of_gt hle hcmp
            rw [h3, cmpBytes_eq_iff.mpr rfl] at hx
            cases hx
      · rw [if_neg hlr]
        constructor
        · intro h; cases h
        · rintro ⟨i, h1, h2, _⟩; omega

theorem bsearch_correct (xs : List (List Nat)) (target : List Nat)
    (hs : List.Pairwise bleP xs) :
    (bsearch xs target = true ↔ target ∈ xs) := by
  unfold bsearch
  rw [bsearchGo_correct xs target hs (xs.length + 1) 0 xs.length (le_refl _) (by omega)]
  constructor
  · rintro ⟨i, _, h2, h3⟩
    rw [List.getD_eq_getElem xs [] h2] at h3
    exact h3 ▸ List.getElem_mem h2
  · intro h
    obtain ⟨n, hlen, hget⟩ := List.mem_iff_getElem.mp h
    refine ⟨n, by omega, hlen, ?_⟩
    rw [List.getD_eq_getElem xs [] hlen]
    exact hget

/-! ### Store lemmas -/

/-- The 32-byte digest slots of an account data buffer. -/
def slots (data : List Nat) : List (List Nat) :=
  (asChunks SIG_SIZE (data.drop HEAD_SIZE)).1

theorem flatten_length_const (n : Nat) (bs : List (List Nat))
    (hb : ∀ b ∈ bs, b.length = n) : bs.flatten.length = n * bs.length := by
  induction bs with
  | nil => simp
  | cons b bt ih =>
      simp only [List.flatten_cons, List.length_append, List.length_cons]
      rw [hb b (by simp), ih (fun x hx => hb x (by simp [hx]))]
      ring

theorem asChunks_rem_length (n : Nat) (hn : 0 < n) (l : List Nat) :
    (asChunks n l).2.length = l.length % n := by
  have hj := asChunks_join n l
  have hl := congrArg List.length hj
  rw [List.length_append] at hl
  rw [flatten_length_const n _ (asChunks_mem_length n l)] at hl
  rw [asChunks_length n l hn] at hl
  have := Nat.mod_add_div l.length n
  omega

theorem headerSet_length (head : List Nat) (epoch : Option Nat) (count : Nat)
    (h : 8 ≤ head.length) :
    (headerSet head epoch count).length = 12 := by
  unfold headerSet
  cases epoch <;> simp [List.length_take] <;> omega

theorem headerCount_of_pre (pre : List Nat) (count : Nat) (h : pre.length = 8) :
    headerCount (pre ++ toLE 4 count) = count % 2 ^ 32 := by
  unfold headerCount
  rw [← h, List.drop_left, List.take_of_length_le (by simp), fromLE_toLE]
  norm_num

theorem headerCount_headerSet (head : List Nat) (epoch : Option Nat) (count : Nat)
    (h : 8 ≤ head.length) :
    headerCount (headerSet head epoch count) = count % 2 ^ 32 := by
  unfold headerSet
  cases epoch with
  | some e => exact headerCount_of_pre _ count (by simp)
  | none =>
      exact headerCount_of_pre _ count (by rw [List.length_take]; omega)

theorem headerEpoch_headerSet_some (head : List Nat) (e count : Nat) :
    headerEpoch (headerSet head (some e) count) = e % 2 ^ 64 := by
  unfold headerEpoch headerSet
  rw [List.take_append_of_le_length (by simp)]
  rw [List.take_of_length_le (by simp)]
  rw [fromLE_toLE]
  norm_num

theorem headerEpoch_headerSet_none (head : List Nat) (count : Nat)
    (h : 8 ≤ head.length) :
    headerEpoch (headerSet head none count) = headerEpoch head := by
  unfold headerEpoch headerSet
  rw [List.take_append_of_le_length (by rw [List.length_take]; omega)]
  rw [List.take_take]
  simp

/-- Inversion of a successful `write_count_and_sort`: the bounds checks
passed and the output has the sorted-and-reassembled shape. -/
theorem write_count_and_sort_ok_inv {data : List Nat} {epoch : Option Nat}
    {count : Nat} {out : List Nat}
    (h : write_count_and_sort data epoch count = .ok out) :
    HEAD_SIZE ≤ data.length ∧ count ≤ (slots data).length ∧
      out = headerSet (data.take HEAD_SIZE) epoch count ++
        (List.insertionSort bleP ((slots data).take count) ++
          (slots data).drop count).flatten ++
        (asChunks SIG_SIZE (data.drop HEAD_SIZE)).2 := by
  unfold write_count_and_sort at h
  by_cases h1 : HEAD_SIZE ≤ data.length
  · rw [if_pos h1] at h
    by_cases h2 : count ≤ (asChunks SIG_SIZE (data.drop HEAD_SIZE)).1.length
    · rw [if_pos h2] at h
      refine ⟨h1, h2, ?_⟩
      injection h with h
      exact h.symm
    · rw [if_neg h2] at h
      cases h
  · rw [if_neg h1] at h
    cases h

theorem write_count_and_sort_shape {data : List Nat} {epoch : Option Nat}
    {count : Nat} {out : List Nat}
    (h : write_count_and_sort data epoch count = .ok out) :
    out.take HEAD_SIZE = headerSet (data.take HEAD_SIZE) epoch count ∧
    slots out =
      List.insertionSort bleP ((slots data).take count) ++ (slots data).drop count ∧
    (asChunks SIG_SIZE (out.drop HEAD_SIZE)).2 =
      (asChunks SIG_SIZE (data.drop HEAD_SIZE)).2 ∧
    out.length = data.length := by
  obtain ⟨h1, h2, h3⟩ := write_count_and_sort_ok_inv h
  have hheadlen : (data.take HEAD_SIZE).length = HEAD_SIZE := by
    rw [List.length_take]; omega
  have hhdr : (headerSet (data.take HEAD_SIZE) epoch count).length = HEAD_SIZE := by
    rw [headerSet_length _ _ _ (by rw [hheadlen]; norm_num [HEAD_SIZE])]
    exact rfl
  have hblocks : ∀ b ∈ List.insertionSort bleP ((slots data).take count) ++
      (slots data).drop count, b.length = SIG_SIZE := by
    intro b hb
    rcases List.mem_append.mp hb with hb | hb
    · have := (List.perm_insertionSort bleP ((slots data).take count)).mem_iff.mp hb
      exact asChunks_mem_length SIG_SIZE _ b (List.take_subset _ _ this)
    · exact asChunks_mem_length SIG_SIZE _ b (List.mem_of_mem_drop hb)
  have hremlt : (asChunks SIG_SIZE (data.drop HEAD_SIZE)).2.length < SIG_SIZE := by
    rw [asChunks_rem_length SIG_SIZE (by norm_num [SIG_SIZE])]
    exact Nat.mod_lt _ (by norm_num [SIG_SIZE])
  have htake : out.take HEAD_SIZE = headerSet (data.take HEAD_SIZE) epoch count := by
    rw [h3, List.append_assoc]
    exact List.take_left' hhdr
  have hdrop : out.drop HEAD_SIZE =
      (List.insertionSort bleP ((slots data).take count) ++
        (slots data).drop count).flatten ++
      (asChunks SIG_SIZE (data.drop HEAD_SIZE)).2 := by
    rw [h3, List.append_assoc]
    exact List.drop_left' hhdr
  have hchunks : asChunks SIG_SIZE (out.drop HEAD_SIZE) =
      (List.insertionSort bleP ((slots data).take count) ++ (slots data).drop count,
        (asChunks SIG_SIZE (data.drop HEAD_SIZE)).2) := by
    rw [hdrop, asChunks_blocks SIG_SIZE (by norm_num [SIG_SIZE]) _ hblocks]
    rw [asChunks_eq, if_neg (by omega)]
    simp
  refine ⟨htake, ?_, ?_, ?_⟩
  · unfold slots
    rw [hchunks]
    simp [slots]
  · rw [hchunks]

  · have hsortlen : (List.insertionSort bleP ((slots data).take count)).length
        = count := by
      rw [List.length_insertionSort, List.length_take]
      omega
    have hjoin := asChunks_join SIG_SIZE (data.drop HEAD_SIZE)
    have hjlen := congrArg List.length hjoin
    rw [List.length_append,
      flatten_length_const SIG_SIZE _ (asChunks_mem_length SIG_SIZE _),
      List.length_drop] at hjlen
    have houtlen := congrArg List.length h3
    rw [List.length_append, List.length_append, hhdr,
      flatten_length_const SIG_SIZE _ hblocks,
      List.length_append, hsortlen, List.length_drop] at houtlen
    unfold slots at h2 houtlen
    simp only [SIG_SIZE, HEAD_SIZE] at h1 h2 hjlen houtlen ⊢
    omega

theorem flatten_drop_const (n c : Nat) (bs : List (List Nat))
    (hb : ∀ b ∈ bs, b.length = n) (hc : c ≤ bs.length) :
    bs.flatten.drop (n * c) = (bs.drop c).flatten := by
  have hsplit : bs.flatten = (bs.take c).flatten ++ (bs.drop c).flatten := by
    rw [← List.flatten_append, List.take_append_drop]
  rw [hsplit]
  apply List.drop_left'
  rw [flatten_length_const n _ (fun b hb2 => hb b (List.take_subset _ _ hb2))]
  rw [List.length_take]
  congr 1
  omega

/-- C4: after a successful `write_count_and_sort(Some e, count)`, reading
the count back with the same epoch, a different epoch, and no epoch gives
`count`, `0` and `count` respectively. -/
theorem claim_c4_epoch_gating (data out : List Nat) (e count : Nat)
    (he : e < 2 ^ 64) (hc : count < 2 ^ 32)
    (h : write_count_and_sort data (some e) count = .ok out) :
    read_count out (some e) = .ok count ∧
    (∀ e', e' < 2 ^ 64 → e' ≠ e → read_count out (some e') = .ok 0) ∧
    read_count out none = .ok count := by
  obtain ⟨htake, hslots, hrem, hlen⟩ := write_count_and_sort_shape h
  obtain ⟨h1, h2, h3⟩ := write_count_and_sort_ok_inv h
  have houtlen : HEAD_SIZE ≤ out.length := by omega
  have hheadlen8 : 8 ≤ (data.take HEAD_SIZE).length := by
    rw [List.length_take]
    have e12 : HEAD_SIZE = 12 := rfl
    omega
  have hcnt : headerCount (out.take HEAD_SIZE) = count := by
    rw [htake, headerCount_headerSet _ _ _ hheadlen8, Nat.mod_eq_of_lt hc]
  have hep : headerEpoch (out.take HEAD_SIZE) = e := by
    rw [htake, headerEpoch_headerSet_some, Nat.mod_eq_of_lt he]
  refine ⟨?_, ?_, ?_⟩
  · unfold read_count
    rw [if_pos houtlen]
    simp [headerGetCount, hep, hcnt]
  · intro e' he' hne
    unfold read_count
    rw [if_pos houtlen]
    simp only [headerGetCount, hep]
    rw [if_pos hne]
  · unfold read_count
    rw [if_pos houtlen]
    simp [headerGetCount, hcnt]

/-- C10: a successful `write_count_and_sort` only permutes the first
`count` digest slots, leaves every byte from slot `count` on unchanged,
preserves the total length, writes `count` into the header, and leaves
the stored epoch alone when none is supplied. -/
theorem claim_c10_frame (data out : List Nat) (epoch : Option Nat) (count : Nat)
    (h : write_count_and_sort data epoch count = .ok out) :
    ((slots out).take count).Perm ((slots data).take count) ∧
    out.drop (HEAD_SIZE + SIG_SIZE * count) =
      data.drop (HEAD_SIZE + SIG_SIZE * count) ∧
    out.length = data.length ∧
    headerCount (out.take HEAD_SIZE) = count % 2 ^ 32 ∧
    (epoch = none → out.take 8 = data.take 8) := by
  obtain ⟨htake, hslots, hrem, hlen⟩ := write_count_and_sort_shape h
  obtain ⟨h1, h2, h3⟩ := write_count_and_sort_ok_inv h
  have hsortmem : ∀ b ∈ List.insertionSort bleP ((slots data).take count),
      b.length = SIG_SIZE := by
    intro b hb
    have := (List.perm_insertionSort bleP ((slots data).take count)).mem_iff.mp hb
    exact asChunks_mem_length SIG_SIZE _ b (List.take_subset _ _ this)
  have hsortlen : (List.insertionSort bleP ((slots data).take count)).length
      = count := by
    rw [List.length_insertionSort, List.length_take]
    omega
  have hheadlen8 : 8 ≤ (data.take HEAD_SIZE).length := by
    rw [List.length_take]
    have e12 : HEAD_SIZE = 12 := rfl
    omega
  refine ⟨?_, ?_, hlen, ?_, ?_⟩
  · rw [hslots, List.take_left' hsortlen]
    exact List.perm_insertionSort bleP _
  · have hmemout := asChunks_mem_length SIG_SIZE (out.drop HEAD_SIZE)
    have hmemdat := asChunks_mem_length SIG_SIZE (data.drop HEAD_SIZE)
    have hcout : count ≤ (asChunks SIG_SIZE (out.drop HEAD_SIZE)).1.length := by
      show count ≤ (slots out).length
      rw [hslots, List.length_append, hsortlen]
      omega
    have hs₁ : (asChunks SIG_SIZE (out.drop HEAD_SIZE)).1.flatten.drop
        (SIG_SIZE * count) = ((slots data).drop count).flatten := by
      rw [flatten_drop_const SIG_SIZE count _ hmemout hcout]
      show ((slots out).drop count).flatten = _
      rw [hslots, List.drop_left' hsortlen]
    have hs₂ : (asChunks SIG_SIZE (data.drop HEAD_SIZE)).1.flatten.drop
        (SIG_SIZE * count) = ((slots data).drop count).flatten :=
      flatten_drop_const SIG_SIZE count _ hmemdat h2
    have hlen₁ : SIG_SIZE * count ≤
        (asChunks SIG_SIZE (out.drop HEAD_SIZE)).1.flatten.length := by
      rw [flatten_length_const SIG_SIZE _ hmemout]
      exact Nat.mul_le_mul_left SIG_SIZE hcout
    have hlen₂ : SIG_SIZE * count ≤
        (asChunks SIG_SIZE (data.drop HEAD_SIZE)).1.flatten.length := by
      rw [flatten_length_const SIG_SIZE _ hmemdat]
      exact Nat.mul_le_mul_left SIG_SIZE h2
    have hdd₁ : out.drop (HEAD_SIZE + SIG_SIZE * count) =
        ((asChunks SIG_SIZE (out.drop HEAD_SIZE)).1.flatten ++
          (asChunks SIG_SIZE (out.drop HEAD_SIZE)).2).drop (SIG_SIZE * count) := by
      rw [asChunks_join SIG_SIZE (out.drop HEAD_SIZE), List.drop_drop]
    have hdd₂ : data.drop (HEAD_SIZE + SIG_SIZE * count) =
        ((asChunks SIG_SIZE (data.drop HEAD_SIZE)).1.flatten ++
          (asChunks SIG_SIZE (data.drop HEAD_SIZE)).2).drop (SIG_SIZE * count) := by
      rw [asChunks_join SIG_SIZE (data.drop HEAD_SIZE), List.drop_drop]
    rw [hdd₁, hdd₂, List.drop_append_of_le_length hlen₁,
      List.drop_append_of_le_length hlen₂, hs₁, hs₂, hrem]
  · rw [htake, headerCount_headerSet _ _ _ hheadlen8]
  · intro hnone
    subst hnone
    have e₃ : out.take 8 = (out.take HEAD_SIZE).take 8 := by
      rw [List.take_take]
      congr 1
    have e₄ : data.take 8 = (data.take HEAD_SIZE).take 8 := by
      rw [List.take_take]
      congr 1
    rw [e₃, e₄, htake]
    unfold headerSet
    rw [List.take_append_of_le_length (by rw [List.length_take]; omega)]
    rw [List.take_take]
    congr 1

/-- C2 (amended): after a `write_count_and_sort` finalisation the first
`count` digest slots are non-decreasing and `find_sighash` answers
membership in exactly those slots; moreover `find_sighash` never consults
bytes past the first `HEAD_SIZE + SIG_SIZE * count` (for buffers of equal
length). -/
theorem claim_c2_store_invariant :
    (∀ (data : List Nat) (epoch : Option Nat) (count : Nat) (out : List Nat),
      count < 2 ^ 32 →
      write_count_and_sort data epoch count = .ok out →
      List.Pairwise bleP ((slots out).take (headerCount (out.take HEAD_SIZE))) ∧
      ∀ sig, (find_sighash out sig = .ok true ↔
        sig ∈ (slots out).take (headerCount (out.take HEAD_SIZE)))) ∧
    (∀ (d₁ d₂ sig : List Nat), d₁.length = d₂.length →
      d₁.take (HEAD_SIZE + SIG_SIZE * headerCount (d₁.take HEAD_SIZE)) =
        d₂.take (HEAD_SIZE + SIG_SIZE * headerCount (d₁.take HEAD_SIZE)) →
      find_sighash d₁ sig = find_sighash d₂ sig) := by
  constructor
  · intro data epoch count out hc h
    obtain ⟨htake, hslots, hrem, hlen⟩ := write_count_and_sort_shape h
    obtain ⟨h1, h2, h3⟩ := write_count_and_sort_ok_inv h
    have hheadlen8 : 8 ≤ (data.take HEAD_SIZE).length := by
      rw [List.length_take]
      have e12 : HEAD_SIZE = 12 := rfl
      omega
    have hcnt : headerCount (out.take HEAD_SIZE) = count := by
      rw [htake, headerCount_headerSet _ _ _ hheadlen8, Nat.mod_eq_of_lt hc]
    have hsortlen : (List.insertionSort bleP ((slots data).take count)).length
        = count := by
      rw [List.length_insertionSort, List.length_take]
      omega
    have hsorted : List.Pairwise bleP ((slots out).take count) := by
      rw [hslots, List.take_left' hsortlen]
      exact List.sorted_insertionSort bleP ((slots data).take count)
    have houtlen : HEAD_SIZE ≤ out.length := by omega
    have hcout : count ≤ (slots out).length := by
      rw [hslots, List.length_append, hsortlen]
      omega
    refine ⟨by rw [hcnt]; exact hsorted, ?_⟩
    intro sig
    simp only [find_sighash]
    have hfold : (asChunks SIG_SIZE (out.drop HEAD_SIZE)).1 = slots out := rfl
    rw [if_pos houtlen, hcnt, hfold, if_pos hcout]
    constructor
    · intro hok
      injection hok with hok
      exact (bsearch_correct _ sig hsorted).mp hok
    · intro hmem
      rw [(bsearch_correct _ sig hsorted).mpr hmem]
  · intro d₁ d₂ sig hlen hpre
    by_cases h12 : HEAD_SIZE ≤ d₁.length
    · have h12' : HEAD_SIZE ≤ d₂.length := by omega
      have hhead : d₁.take HEAD_SIZE = d₂.take HEAD_SIZE := by
        have hc := congrArg (List.take HEAD_SIZE) hpre
        rwa [List.take_take, List.take_take, min_eq_left (by omega)] at hc
      have hcnt2 : headerCount (d₂.take HEAD_SIZE) =
          headerCount (d₁.take HEAD_SIZE) := by rw [hhead]
      have hslotlen : (slots d₁).length = (slots d₂).length := by
        unfold slots
        rw [asChunks_length _ _ (by norm_num [SIG_SIZE]),
          asChunks_length _ _ (by norm_num [SIG_SIZE]),
          List.length_drop, List.length_drop, hlen]
      have hslots_take : (slots d₁).take (headerCount (d₁.take HEAD_SIZE)) =
          (slots d₂).take (headerCount (d₁.take HEAD_SIZE)) := by
        apply List.ext_get?
        intro i
        rcases Nat.lt_or_ge i (headerCount (d₁.take HEAD_SIZE)) with hi | hi
        · rw [List.get?_take hi, List.get?_take hi]
          unfold slots
          rw [asChunks_get _ (by norm_num [SIG_SIZE]) _ i,
            asChunks_get _ (by norm_num [SIG_SIZE]) _ i]
          rw [List.length_drop, List.length_drop, hlen]
          by_cases hbound : SIG_SIZE * i + SIG_SIZE ≤ d₂.length - HEAD_SIZE
          · rw [if_pos hbound, if_pos hbound]
            congr 1
            rw [List.drop_drop, List.drop_drop]
            have hagree := congrArg
              (List.drop (HEAD_SIZE + SIG_SIZE * i)) hpre
            rw [List.drop_take, List.drop_take] at hagree
            have hagree2 := congrArg (List.take SIG_SIZE) hagree
            rw [List.take_take, List.take_take,
              min_eq_left (by simp only [SIG_SIZE, HEAD_SIZE] at hi ⊢; omega)]
              at hagree2
            exact hagree2
          · rw [if_neg hbound, if_neg hbound]
        · rw [List.get?_eq_none.mpr (by rw [List.length_take]; omega),
            List.get?_eq_none.mpr (by rw [List.length_take]; omega)]
      simp only [find_sighash]
      have hfold₁ : (asChunks SIG_SIZE (d₁.drop HEAD_SIZE)).1 = slots d₁ := rfl
      have hfold₂ : (asChunks SIG_SIZE (d₂.drop HEAD_SIZE)).1 = slots d₂ := rfl
      rw [if_pos h12, if_pos h12', hcnt2, hfold₁, hfold₂, hslotlen, hslots_take]
    · have h12' : ¬ HEAD_SIZE ≤ d₂.length := by omega
      simp only [find_sighash]
      rw [if_neg h12, if_neg h12']

/-- The operation sequence refuting the unrestricted ordering claim: two
digests written and sorted under count 2, then slot 0 overwritten with a
digest larger than slot 1. -/
def c2SeqResult : Except ProgramError (List Nat) := do
  let d1 ← write_signature (List.replicate 76 0) 0 (2 :: List.replicate 31 0)
    (fun _ => .error .AccountDataTooSmall)
  let d2 ← write_signature d1 1 (1 :: List.replicate 31 0)
    (fun _ => .error .AccountDataTooSmall)
  let d3 ← write_count_and_sort d2 none 2
  write_signature d3 0 (3 :: List.replicate 31 0)
    (fun _ => .error .AccountDataTooSmall)

/-- The result buffer of `c2SeqResult` (empty if the sequence failed). -/
def c2Out : List Nat :=
  match c2SeqResult with
  | .ok out => out
  | .error _ => []

/-- C2 counterexample: after a sequence of `write_signature` and
`write_count_and_sort` calls that ends in a `write_signature`, the first
`count` slots are not sorted and `find_sighash` misses a digest that is
among them. -/
theorem claim_c2_counterexample :
    c2SeqResult = .ok c2Out ∧
    ¬ List.Pairwise bleP ((slots c2Out).take (headerCount (c2Out.take HEAD_SIZE))) ∧
    (3 :: List.replicate 31 0) ∈
      (slots c2Out).take (headerCount (c2Out.take HEAD_SIZE)) ∧
    find_sighash c2Out (3 :: List.replicate 31 0) = .ok false := by decide

/-! ### Native sigverify instruction codec
(model of `native-sigverify/src/lib.rs`) -/

/-- A signature entry: 64-byte signature, 32-byte public key, message. -/
structure Entry where
  signature : List Nat
  pubkey : List Nat
  message : List Nat
deriving DecidableEq, Repr

/-- Well-formedness imposed by the Rust types `&[u8; 64]` / `&[u8; 32]`. -/
def EntryWf (e : Entry) : Prop :=
  e.signature.length = 64 ∧ e.pubkey.length = 32

instance (e : Entry) : Decidable (EntryWf e) := by
  unfold EntryWf
  infer_instance

/-- `size_of::<SignatureOffsets>()`. -/
def OFF_SIZE : Nat := 14

/-- The `SignatureOffsets` record; all fields are `u16` values. -/
structure SignatureOffsets where
  signature_offset : Nat
  signature_instruction_index : Nat
  pubkey_offset : Nat
  pubkey_instruction_index : Nat
  message_offset : Nat
  message_size : Nat
  message_instruction_index : Nat
deriving DecidableEq, Repr

/-- Byte image of a `SignatureOffsets` record: seven little-endian `u16`
fields in declaration order (`repr(C)`, `bytemuck::bytes_of`). -/
def recBytes (o : SignatureOffsets) : List Nat :=
  toLE 2 o.signature_offset ++ toLE 2 o.signature_instruction_index ++
  toLE 2 o.pubkey_offset ++ toLE 2 o.pubkey_instruction_index ++
  toLE 2 o.message_offset ++ toLE 2 o.message_size ++
  toLE 2 o.message_instruction_index

@[simp] theorem recBytes_length (o : SignatureOffsets) :
    (recBytes o).length = 14 := by
  simp [recBytes]

/-- Default entry used with `List.getD`. -/
def dEntry : Entry := ⟨[], [], []⟩

/-- Default offsets record used with `List.getD`. -/
def dRec : SignatureOffsets := ⟨0, 0, 0, 0, 0, 0, 0⟩

/-- The `i`-th little-endian `u16` of a record's byte image
(`bytemuck::must_cast_ref` to `[[u8; 2]; 7]` followed by
`u16::from_le_bytes`). -/
def u16at (rec : List Nat) (i : Nat) : Nat :=
  fromLE ((rec.drop (2 * i)).take 2)

/-- Parse error model (`Error` in the source). -/
inductive SigError where
  | UnsupportedFeature
  | BadData
deriving DecidableEq, Repr

/-- `get_array::<N>`: `N` bytes of `data` starting at `offset`, `none`
when they extend past the end. -/
def getArr (n : Nat) (data : List Nat) (off : Nat) : Option (List Nat) :=
  if off + n ≤ data.length then some ((data.drop off).take n) else none

/-- `data.get(off..)?.get(..len)?`: `len` bytes at `off`, checked. -/
def getSlice (data : List Nat) (off len : Nat) : Option (List Nat) :=
  if off + len ≤ data.length then some ((data.drop off).take len) else none

/-- `decode_entry`: reject records referencing other instructions, then
resolve the signature, key and message slices inside `data`. -/
def decode_entry (data : List Nat) (rec : List Nat) : Except SigError Entry :=
  if u16at rec 1 ≠ 65535 ∨ u16at rec 3 ≠ 65535 ∨ u16at rec 6 ≠ 65535 then
    .error .UnsupportedFeature
  else
    match getArr 64 data (u16at rec 0), getArr 32 data (u16at rec 2),
        getSlice data (u16at rec 4) (u16at rec 5) with
    | some s, some p, some m => .ok ⟨s, p, m⟩
    | _, _, _ => .error .BadData

/-- `parse_data`: check the `count, 0` header and return the `count`
14-byte offset records; `none` models `Err(BadData)`. -/
def parse_data (data : List Nat) : Option (List (List Nat)) :=
  match data with
  | count :: z :: rest =>
      if z = 0 then
        if count ≤ (asChunks 14 rest).1.length then
          some ((asChunks 14 rest).1.take count)
        else none
      else none
  | _ => none

/-- Every item the `Iter` over `parse_data`'s result yields, in order. -/
def parseResults (data : List Nat) : Option (List (Except SigError Entry)) :=
  (parse_data data).map (List.map (decode_entry data))

/-- `Iterator::position` over a list. -/
def position? (p : α → Bool) : List α → Option Nat
  | [] => none
  | x :: xs => if p x then some 0 else (position? p xs).map (· + 1)

/-- State of the encoder loop in `write_instruction_data`: the offset
records and entries already processed, the payload bytes appended after
the record area, and the running length `len` (which starts at
`2 + 14 * n` and counts header, record area and payload). -/
structure WiState where
  recs : List SignatureOffsets
  prev : List Entry
  payload : List Nat
  len : Nat
deriving Repr

/-- One iteration of the encoder loop: deduplicate the message against
earlier entries (byte-identical or an earlier message having it as a
byte-prefix), always append the signature, deduplicate the public key,
and emit the offsets record (`u16` casts modelled as `% 65536`). -/
def wiStep (s : WiState) (e : Entry) : WiState :=
  let msgFound := position? (fun ent => e.message.isPrefixOf ent.message) s.prev
  let msgOff := match msgFound with
    | some pos => (s.recs.getD pos dRec).message_offset
    | none => s.len % 65536
  let payload₁ := match msgFound with
    | some _ => s.payload
    | none => s.payload ++ e.message
  let len₁ := match msgFound with
    | some _ => s.len
    | none => s.len + e.message.length
  let sigOff := len₁ % 65536
  let payload₂ := payload₁ ++ e.signature
  let len₂ := len₁ + e.signature.length
  let keyFound := position? (fun ent => ent.pubkey = e.pubkey) s.prev
  let keyOff := match keyFound with
    | some pos => (s.recs.getD pos dRec).pubkey_offset
    | none => len₂ % 65536
  let payload₃ := match keyFound with
    | some _ => payload₂
    | none => payload₂ ++ e.pubkey
  let len₃ := match keyFound with
    | some _ => len₂
    | none => len₂ + e.pubkey.length
  { recs := s.recs ++ [⟨sigOff, 65535, keyOff, 65535, msgOff,
      e.message.length % 65536, 65535⟩],
    prev := s.prev ++ [e],
    payload := payload₃,
    len := len₃ }

/-- Initial encoder state: `len` starts past the header and record area. -/
def wiInit (n : Nat) : WiState :=
  { recs := [], prev := [], payload := [], len := 2 + n * OFF_SIZE }

/-- The encoder loop over all entries. -/
def wiRun (entries : List Entry) : WiState :=
  entries.foldl wiStep (wiInit entries.length)

/-- `write_instruction_data`: the final buffer contents (count byte, zero
byte, record area, payload) and the length the function returns. -/
def write_instruction_data (entries : List Entry) : List Nat × Nat :=
  let s := wiRun entries
  ((entries.length % 256) :: 0 :: (s.recs.map recBytes).flatten ++ s.payload,
    s.len)

/-- The `u16` accumulator loop of `new_instruction_data`: `u16::try_from`
on each message length, then `checked_add` onto the capacity. -/
def capFold : Nat → List Entry → Option Nat
  | cap, [] => some cap
  | cap, e :: es =>
      if e.message.length ≤ 65535 then
        if cap + e.message.length ≤ 65535 then
          capFold (cap + e.message.length) es
        else none
      else none

/-- `new_instruction_data`: `u8::try_from(entries.len())`, the capacity
accumulation, then the writer. -/
def new_instruction_data (entries : List Entry) : Option (List Nat) :=
  if entries.length ≤ 255 then
    match capFold ((2 + (OFF_SIZE + 64 + 32) * entries.length) % 65536) entries with
    | some _ => some (write_instruction_data entries).1
    | none => none
  else none

/-! ### C6: failure conditions of `new_instruction_data` -/

theorem capFold_none_iff (es : List Entry) :
    ∀ cap, cap ≤ 65535 →
      (capFold cap es = none ↔
        ¬((∀ e ∈ es, e.message.length ≤ 65535) ∧
          cap + (es.map (fun e => e.message.length)).sum ≤ 65535)) := by
  induction es with
  | nil =>
      intro cap hcap
      simp [capFold, hcap]
  | cons e es ih =>
      intro cap hcap
      simp only [capFold]
      by_cases h1 : e.message.length ≤ 65535
      · rw [if_pos h1]
        by_cases h2 : cap + e.message.length ≤ 65535
        · rw [if_pos h2, ih _ h2]
          simp only [List.mem_cons, List.map_cons, List.sum_cons]
          constructor
          · intro h hcon
            obtain ⟨ha, hb⟩ := hcon
            exact h ⟨fun x hx => ha x (Or.inr hx), by omega⟩
          · intro h hcon
            obtain ⟨ha, hb⟩ := hcon
            refine h ⟨?_, by omega⟩
            rintro x (rfl | hx)
            · exact h1
            · exact ha x hx
        · rw [if_neg h2]
          simp only [List.map_cons, List.sum_cons]
          constructor
          · intro _ hcon
            obtain ⟨_, hb⟩ := hcon
            omega
          · intro _
            trivial
      · rw [if_neg h1]
        constructor
        · intro _ hcon
          exact h1 (hcon.1 e (List.mem_cons_self _ _))
        · intro _
          trivial

/-- C6: `new_instruction_data` returns `None` exactly when there are more
than 255 entries, some message exceeds 65535 bytes, or the worst-case
size `2 + (14+64+32)*n` plus all message lengths overflows the 16-bit
capacity accumulator; otherwise it returns `Some`. -/
theorem claim_c6_encode_failure (entries : List Entry) :
    new_instruction_data entries = none ↔
      255 < entries.length ∨
      (∃ e ∈ entries, 65535 < e.message.length) ∨
      65535 < 2 + (14 + 64 + 32) * entries.length +
        (entries.map (fun e => e.message.length)).sum := by
  unfold new_instruction_data
  by_cases hn : entries.length ≤ 255
  · rw [if_pos hn]
    have hcap0 : (2 + (OFF_SIZE + 64 + 32) * entries.length) % 65536 =
        2 + (14 + 64 + 32) * entries.length := by
      have e14 : OFF_SIZE = 14 := rfl
      rw [e14]
      apply Nat.mod_eq_of_lt
      omega
    rw [hcap0]
    by_cases hover : 65535 < 2 + (14 + 64 + 32) * entries.length +
        (entries.map (fun e => e.message.length)).sum
    · have : capFold (2 + (14 + 64 + 32) * entries.length) entries = none := by
        rw [capFold_none_iff entries _ (by omega)]
        intro hcon
        obtain ⟨_, hb⟩ := hcon
        omega
      rw [this]
      simp only [iff_true_intro hover]
      simp
    · by_cases hmsg : ∃ e ∈ entries, 65535 < e.message.length
      · have : capFold (2 + (14 + 64 + 32) * entries.length) entries = none := by
          rw [capFold_none_iff entries _ (by omega)]
          intro hcon
          obtain ⟨ha, _⟩ := hcon
          obtain ⟨e, he, hbig⟩ := hmsg
          have := ha e he
          omega
        rw [this]
        simp [hmsg]
      · have hsome : capFold (2 + (14 + 64 + 32) * entries.length) entries ≠ none := by
          rw [Ne, capFold_none_iff entries
            (2 + (14 + 64 + 32) * entries.length) (by omega), not_not]
          constructor
          · intro x hx
            by_contra hc
            exact hmsg ⟨x, hx, by omega⟩
          · omega
        rcases hcf : capFold (2 + (14 + 64 + 32) * entries.length) entries with _ | v
        · exact absurd hcf hsome
        · simp only []
          constructor
          · intro hh
            cases hh
          · intro hh
            rcases hh with hh | hh | hh
            · omega
            · exact absurd hh hmsg
            · exact absurd hh hover
  · rw [if_neg hn]
    constructor
    · intro _
      left
      omega
    · intro _
      rfl

/-! ### Client instruction builders (model of `src/instruction.rs`) -/

/-- `solana_program::pubkey::MAX_SEED_LEN`. -/
def MAX_SEED_LEN : Nat := 32

/-- `check_seed`: seed must be strictly shorter than `MAX_SEED_LEN`. -/
def check_seed (seed : List Nat) : Except ProgramError Nat :=
  if seed.length < MAX_SEED_LEN then .ok seed.length
  else .error .MaxSeedLengthExceeded

/-- `buf[off..off + src.len()].copy_from_slice(src)` (and, with a
singleton `src`, `buf[off] = x`) on an in-range slice: splice `src` over
`buf` at offset `off`. -/
def setRange (buf : List Nat) (off : Nat) (src : List Nat) : List Nat :=
  buf.take off ++ src ++ buf.drop (off + src.length)

/-- The instruction data built by `update` (the program-derived address
and bump come from the environment's `find_program_address`, so the bump
is a parameter here).  The source serialises into a fixed `[0; 40]`
scratch buffer: tag 0 (left from zero-initialisation), the seed length
from `check_seed` at `buf[1]`, the seed at `buf[2..2 + seed_len]`, the
bump at `buf[2 + seed_len]`, and, when an epoch is supplied, its 8
little-endian bytes at `buf[len..len + 8]` with `len = 2 + seed_len + 1`;
the prefix `buf[..len]` is returned.  The seed and bump writes are in
range whenever `check_seed` succeeds (`2 + seed_len + 1 ≤ 34 ≤ 40`), but
the epoch write is in range only when `len + 8 ≤ 40`; `none` models the
index-out-of-range panic when it is not. -/
def updateData (seed : List Nat) (bump : Nat) (epoch : Option Nat) :
    Option (Except ProgramError (List Nat)) :=
  match check_seed seed with
  | .error e => some (.error e)
  | .ok sl =>
      let buf := setRange (setRange (setRange (List.replicate 40 0) 1 [sl])
        2 seed) (2 + seed.length) [bump]
      match epoch with
      | some ep =>
          if 2 + seed.length + 1 + 8 ≤ 40 then
            some (.ok ((setRange buf (2 + seed.length + 1) (toLE 8 ep)).take
              (2 + seed.length + 1 + 8)))
          else none
      | none => some (.ok (buf.take (2 + seed.length + 1)))

/-- C3: the claim fails on the code.  `update` serialises into a fixed
40-byte buffer, so with an epoch supplied the epoch write
`buf[len..len + 8]` (`len = 3 + seed_len`) is out of range for seeds of
30 or 31 bytes even though `check_seed` accepts them, and `update`
panics (modelled as `none`) instead of returning Ok.  At 29 bytes, and
for any accepted seed without an epoch, exactly the claimed wire format
comes out.  The claim matches `update`'s own documentation (seed of at
most 31 bytes, epoch freely optional) and the spec's wire format, so
the undersized buffer (40 where 42 is needed) is a bug in the code. -/
theorem claim_c3_update_buffer_overflow :
    check_seed (List.replicate 30 1) = .ok 30 ∧
    updateData (List.replicate 30 1) 9 (some 7) = none ∧
    updateData (List.replicate 31 1) 9 (some 7) = none ∧
    updateData (List.replicate 30 1) 9 none =
      some (.ok (0 :: 30 :: (List.replicate 30 1 ++ [9]))) ∧
    updateData (List.replicate 29 1) 9 (some 7) =
      some (.ok (0 :: 29 :: (List.replicate 29 1 ++ 9 :: toLE 8 7))) ∧
    (0 :: 29 :: (List.replicate 29 1 ++ 9 :: toLE 8 7)).length = 3 + 29 + 8 := by
  decide

/-! ### C8: the `UpdateIter` batching iterator -/

/-- Encoded size of one entry inside a native instruction:
`14 + 64 + 32 + message length`. -/
def entrySize (e : Entry) : Nat := 14 + 64 + 32 + e.message.length

/-- Total encoded size of a run of entries (without the 2-byte header). -/
def sizeSum (es : List Entry) : Nat := (es.map entrySize).sum

/-- The `take_while` loop of `UpdateIter::next`: how many leading entries
fit, consuming the remaining byte budget as it goes. -/
def takeCountGo (limit : Nat) : List Entry → Nat
  | [] => 0
  | e :: es =>
      if entrySize e ≤ limit then 1 + takeCountGo (limit - entrySize e) es
      else 0

/-- Outcome of one `UpdateIter::next` call: the iterator is exhausted
(`None` in the source), or it panics on the
`new_instruction(..).unwrap()` (`abort` here), or it consumes a batch
and leaves the rest. -/
inductive StepResult where
  | done
  | abort
  | batch (b rest : List Entry)
deriving DecidableEq, Repr

/-- One step of `UpdateIter::next`: `done` when no entries remain;
otherwise the forced batch is the longest affordable run (but at least
one entry), `limit` being `max_data_size` minus the 2-byte header
(saturating); the batch is handed to `new_instruction`, whose `unwrap`
panics (`abort`) when `new_instruction_data` rejects it, and only
otherwise is the batch consumed and yielded. -/
def updateStep (maxDataSize : Nat) (entries : List Entry) : StepResult :=
  if entries.isEmpty then .done
  else
    match new_instruction_data
        (entries.take (max (takeCountGo (maxDataSize - 2) entries) 1)) with
    | some _ =>
        .batch (entries.take (max (takeCountGo (maxDataSize - 2) entries) 1))
          (entries.drop (max (takeCountGo (maxDataSize - 2) entries) 1))
    | none => .abort

/-- Fuel-driven iteration of `updateStep` to exhaustion; `none` when
some step hits the `unwrap` panic. -/
def updateBatchesGo (maxDataSize : Nat) :
    Nat → List Entry → Option (List (List Entry))
  | 0, _ => some []
  | _, [] => some []
  | fuel + 1, e :: es =>
      match new_instruction_data
          ((e :: es).take (max (takeCountGo (maxDataSize - 2) (e :: es)) 1)) with
      | some _ =>
          (updateBatchesGo maxDataSize fuel
              ((e :: es).drop (max (takeCountGo (maxDataSize - 2) (e :: es)) 1))).map
            (List.cons ((e :: es).take (max (takeCountGo (maxDataSize - 2) (e :: es)) 1)))
      | none => none

/-- All batches the iterator produces, in order; `none` when iteration
panics. -/
def updateBatches (maxDataSize : Nat) (entries : List Entry) :
    Option (List (List Entry)) :=
  updateBatchesGo maxDataSize entries.length entries

theorem takeCountGo_le (limit : Nat) (es : List Entry) :
    takeCountGo limit es ≤ es.length := by
  induction es generalizing limit with
  | nil => simp [takeCountGo]
  | cons e es ih =>
      simp only [takeCountGo, List.length_cons]
      split_ifs with h
      · have := ih (limit - entrySize e)
        omega
      · omega

theorem takeCountGo_fits (limit : Nat) (es : List Entry) :
    sizeSum (es.take (takeCountGo limit es)) ≤ limit := by
  induction es generalizing limit with
  | nil => simp [takeCountGo, sizeSum]
  | cons e es ih =>
      simp only [takeCountGo]
      split_ifs with h
      · rw [Nat.add_comm 1 (takeCountGo (limit - entrySize e) es),
          List.take_succ_cons]
        simp only [sizeSum, List.map_cons, List.sum_cons]
        have := ih (limit - entrySize e)
        unfold sizeSum at this
        omega
      · simp [sizeSum]

theorem takeCountGo_maximal (limit : Nat) (es : List Entry) :
    ∀ k, k ≤ es.length → sizeSum (es.take k) ≤ limit →
      k ≤ takeCountGo limit es := by
  induction es generalizing limit with
  | nil =>
      intro k hk _
      simp at hk
      omega
  | cons e es ih =>
      intro k hk hfit
      cases k with
      | zero => omega
      | succ j =>
          rw [List.take_succ_cons] at hfit
          simp only [sizeSum, List.map_cons, List.sum_cons] at hfit
          have hsz : entrySize e ≤ limit := by omega
          simp only [takeCountGo, if_pos hsz]
          have := ih (limit - entrySize e) j (by simp at hk; omega)
            (by unfold sizeSum; omega)
          omega

theorem takeCountGo_head (limit : Nat) (e : Entry) (es : List Entry)
    (h : 0 < takeCountGo limit (e :: es)) : entrySize e ≤ limit := by
  by_contra hc
  simp [takeCountGo, if_neg hc] at h

theorem updateStep_eq_batch (m : Nat) (entries : List Entry) (v : List Nat)
    (hne : entries.isEmpty = false)
    (h : new_instruction_data
      (entries.take (max (takeCountGo (m - 2) entries) 1)) = some v) :
    updateStep m entries =
      .batch (entries.take (max (takeCountGo (m - 2) entries) 1))
        (entries.drop (max (takeCountGo (m - 2) entries) 1)) := by
  unfold updateStep
  rw [hne, h]
  rfl

theorem updateStep_eq_abort (m : Nat) (entries : List Entry)
    (hne : entries.isEmpty = false)
    (h : new_instruction_data
      (entries.take (max (takeCountGo (m - 2) entries) 1)) = none) :
    updateStep m entries = .abort := by
  unfold updateStep
  rw [hne, h]
  rfl

theorem updateStep_batch_inv (m : Nat) (entries b rest : List Entry)
    (h : updateStep m entries = .batch b rest) :
    b = entries.take (max (takeCountGo (m - 2) entries) 1) ∧
    rest = entries.drop (max (takeCountGo (m - 2) entries) 1) ∧
    ∃ v, new_instruction_data
      (entries.take (max (takeCountGo (m - 2) entries) 1)) = some v := by
  unfold updateStep at h
  by_cases hne : entries.isEmpty = true
  · rw [if_pos hne] at h
    cases h
  · rw [if_neg hne] at h
    rcases hnid : new_instruction_data
        (entries.take (max (takeCountGo (m - 2) entries) 1)) with _ | v
    · rw [hnid] at h
      cases h
    · rw [hnid] at h
      have h2 : StepResult.batch
          (entries.take (max (takeCountGo (m - 2) entries) 1))
          (entries.drop (max (takeCountGo (m - 2) entries) 1)) =
          StepResult.batch b rest := h
      injection h2 with hb hr
      exact ⟨hb.symm, hr.symm, v, rfl⟩

theorem updateBatchesGo_cons_some (m fuel : Nat) (e : Entry) (es : List Entry)
    (v : List Nat)
    (h : new_instruction_data
      ((e :: es).take (max (takeCountGo (m - 2) (e :: es)) 1)) = some v) :
    updateBatchesGo m (fuel + 1) (e :: es) =
      (updateBatchesGo m fuel
          ((e :: es).drop (max (takeCountGo (m - 2) (e :: es)) 1))).map
        (List.cons ((e :: es).take (max (takeCountGo (m - 2) (e :: es)) 1))) := by
  simp only [updateBatchesGo]
  rw [h]

theorem updateBatchesGo_cons_none (m fuel : Nat) (e : Entry) (es : List Entry)
    (h : new_instruction_data
      ((e :: es).take (max (takeCountGo (m - 2) (e :: es)) 1)) = none) :
    updateBatchesGo m (fuel + 1) (e :: es) = none := by
  simp only [updateBatchesGo]
  rw [h]

theorem updateBatchesGo_fuel (m : Nat) :
    ∀ fuel₁ fuel₂ es, es.length ≤ fuel₁ → es.length ≤ fuel₂ →
      updateBatchesGo m fuel₁ es = updateBatchesGo m fuel₂ es := by
  intro fuel₁
  induction fuel₁ with
  | zero =>
      intro fuel₂ es h1 _
      have : es = [] := List.eq_nil_of_length_eq_zero (by omega)
      subst this
      cases fuel₂ <;> rfl
  | succ f1 ih =>
      intro fuel₂ es h1 h2
      cases es with
      | nil => cases fuel₂ <;> rfl
      | cons e es =>
          cases fuel₂ with
          | zero => simp at h2
          | succ f2 =>
              rcases hnid : new_instruction_data
                  ((e :: es).take (max (takeCountGo (m - 2) (e :: es)) 1))
                  with _ | v
              · rw [updateBatchesGo_cons_none m f1 e es hnid,
                  updateBatchesGo_cons_none m f2 e es hnid]
              · rw [updateBatchesGo_cons_some m f1 e es v hnid,
                  updateBatchesGo_cons_some m f2 e es v hnid]
                congr 1
                apply ih
                · simp only [List.length_drop, List.length_cons] at *
                  have h3 : 1 ≤ max (takeCountGo (m - 2) (e :: es)) 1 := by omega
                  omega
                · simp only [List.length_drop, List.length_cons] at *
                  have h3 : 1 ≤ max (takeCountGo (m - 2) (e :: es)) 1 := by omega
                  omega

theorem updateBatches_flatten (m : Nat) :
    ∀ fuel es batches, es.length ≤ fuel →
      updateBatchesGo m fuel es = some batches → batches.flatten = es := by
  intro fuel
  induction fuel with
  | zero =>
      intro es batches h hb
      have : es = [] := List.eq_nil_of_length_eq_zero (by omega)
      subst this
      simp only [updateBatchesGo] at hb
      injection hb with hb
      rw [← hb]
      rfl
  | succ f ih =>
      intro es batches h hb
      cases es with
      | nil =>
          simp only [updateBatchesGo] at hb
          injection hb with hb
          rw [← hb]
          rfl
      | cons e es =>
          rcases hnid : new_instruction_data
              ((e :: es).take (max (takeCountGo (m - 2) (e :: es)) 1))
              with _ | v
          · rw [updateBatchesGo_cons_none m f e es hnid] at hb
            cases hb
          · rw [updateBatchesGo_cons_some m f e es v hnid] at hb
            rcases hrec : updateBatchesGo m f
                ((e :: es).drop (max (takeCountGo (m - 2) (e :: es)) 1))
                with _ | tl
            · rw [hrec] at hb
              cases hb
            · rw [hrec, Option.map_some'] at hb
              injection hb with hb
              rw [← hb, List.flatten_cons,
                ih _ tl (by
                  simp only [List.length_drop, List.length_cons] at *
                  have h3 : 1 ≤ max (takeCountGo (m - 2) (e :: es)) 1 := by omega
                  omega) hrec]
              exact List.take_append_drop _ _

/-- C8 (amended): a step whose forced batch is rejected by
`new_instruction_data` makes `UpdateIter::next` panic on its `unwrap`
(`abort` / `none` in the model) instead of consuming and yielding it;
every step that does yield consumes the longest run of leading entries
whose cumulative size (2-byte header plus `14+64+32+message` per entry)
stays within the byte budget, except that it always consumes at least
one entry, and when no step panics, concatenating all steps' runs
yields the original entry list. -/
theorem claim_c8_batching (m : Nat) :
    (∀ (entries : List Entry) (batches : List (List Entry)),
      updateBatches m entries = some batches → batches.flatten = entries) ∧
    (∀ entries : List Entry, entries ≠ [] → ∀ b rest,
      updateStep m entries = .batch b rest →
        entries = b ++ rest ∧ b ≠ [] ∧
        (2 + sizeSum b ≤ m ∨ b.length = 1) ∧
        (∀ k, k ≤ entries.length → 2 + sizeSum (entries.take k) ≤ m →
          k ≤ b.length)) ∧
    updateStep m [] = .done ∧
    (∀ entries : List Entry, entries ≠ [] →
      (updateStep m entries = .abort ↔
        new_instruction_data
          (entries.take (max (takeCountGo (m - 2) entries) 1)) = none)) ∧
    (∀ entries : List Entry, entries ≠ [] → ∀ b rest,
      updateStep m entries = .batch b rest →
      updateBatches m entries = (updateBatches m rest).map (List.cons b)) := by
  refine ⟨?_, ?_, rfl, ?_, ?_⟩
  · intro entries batches hb
    exact updateBatches_flatten m entries.length entries batches (le_refl _) hb
  · intro entries hne b rest hstep
    obtain ⟨hb, hr, v, hnid⟩ := updateStep_batch_inv m entries b rest hstep
    subst hb
    subst hr
    have hlenpos : 0 < entries.length := List.length_pos.mpr hne
    have htcle := takeCountGo_le (m - 2) entries
    have hcountle : max (takeCountGo (m - 2) entries) 1 ≤ entries.length := by
      omega
    have hblen : (entries.take (max (takeCountGo (m - 2) entries) 1)).length =
        max (takeCountGo (m - 2) entries) 1 := by
      rw [List.length_take]
      omega
    refine ⟨?_, ?_, ?_, ?_⟩
    · exact (List.take_append_drop _ _).symm
    · intro hcon
      have hlen0 := congrArg List.length hcon
      rw [hblen] at hlen0
      simp only [List.length_nil] at hlen0
      omega
    · by_cases htc0 : takeCountGo (m - 2) entries = 0
      · right
        rw [htc0] at hblen ⊢
        simpa using hblen
      · left
        have hmax : max (takeCountGo (m - 2) entries) 1 =
            takeCountGo (m - 2) entries := by omega
        rw [hmax]
        have hfits := takeCountGo_fits (m - 2) entries
        cases entries with
        | nil => simp at hlenpos
        | cons e es =>
            have hhead : entrySize e ≤ m - 2 :=
              takeCountGo_head (m - 2) e es (by omega)
            have hsz : 110 ≤ entrySize e := by
              unfold entrySize
              omega
            omega
    · intro k hk hfit
      have := takeCountGo_maximal (m - 2) entries k hk (by omega)
      rw [hblen]
      omega
  · intro entries hne
    have hempty : entries.isEmpty = false := by
      cases entries with
      | nil => exact absurd rfl hne
      | cons e es => rfl
    constructor
    · intro h
      by_contra hc
      rcases hnid : new_instruction_data
          (entries.take (max (takeCountGo (m - 2) entries) 1)) with _ | v
      · exact hc hnid
      · rw [updateStep_eq_batch m entries v hempty hnid] at h
        cases h
    · intro h
      exact updateStep_eq_abort m entries hempty h
  · intro entries hne b rest hstep
    obtain ⟨hb, hr, v, hnid⟩ := updateStep_batch_inv m entries b rest hstep
    subst hb
    subst hr
    cases entries with
    | nil => exact absurd rfl hne
    | cons e es =>
        show updateBatchesGo m (es.length + 1) (e :: es) = _
        rw [updateBatchesGo_cons_some m es.length e es v hnid]
        congr 1
        unfold updateBatches
        apply updateBatchesGo_fuel
        · simp only [List.length_drop, List.length_cons]
          have h3 : 1 ≤ max (takeCountGo (m - 2) (e :: es)) 1 := by omega
          omega
        · exact le_refl _

/-! ### Witnesses -/

/-- Concrete output buffer for the C4 witness. -/
def c4Out : List Nat :=
  match write_count_and_sort (List.replicate 76 0) (some 5) 2 with
  | .ok o => o
  | .error _ => []

/-- Witness for C4 at a concrete buffer and epoch. -/
theorem claim_c4_epoch_gating_witness :
    ((5 : Nat) < 2 ^ 64 ∧ (2 : Nat) < 2 ^ 32 ∧
      write_count_and_sort (List.replicate 76 0) (some 5) 2 = .ok c4Out) ∧
    (read_count c4Out (some 5) = .ok 2 ∧
      (∀ e', e' < 2 ^ 64 → e' ≠ 5 → read_count c4Out (some e') = .ok 0) ∧
      read_count c4Out none = .ok 2) :=
  ⟨⟨by norm_num, by norm_num, by decide⟩,
    claim_c4_epoch_gating (List.replicate 76 0) c4Out 5 2
      (by norm_num) (by norm_num) (by decide)⟩

/-- Concrete output buffer for the C10 witness. -/
def c10Out : List Nat :=
  match write_count_and_sort (5 :: List.replicate 75 0) none 2 with
  | .ok o => o
  | .error _ => []

/-- Witness for C10 at a concrete buffer. -/
theorem claim_c10_frame_witness :
    (write_count_and_sort (5 :: List.replicate 75 0) none 2 = .ok c10Out) ∧
    (((slots c10Out).take 2).Perm ((slots (5 :: List.replicate 75 0)).take 2) ∧
      c10Out.drop (HEAD_SIZE + SIG_SIZE * 2) =
        (5 :: List.replicate 75 0).drop (HEAD_SIZE + SIG_SIZE * 2) ∧
      c10Out.length = (5 :: List.replicate 75 0).length ∧
      headerCount (c10Out.take HEAD_SIZE) = 2 % 2 ^ 32 ∧
      ((none : Option Nat) = none → c10Out.take 8 = (5 :: List.replicate 75 0).take 8)) :=
  ⟨by decide,
    claim_c10_frame (5 :: List.replicate 75 0) c10Out none 2 (by decide)⟩

/-- Concrete output buffer for the C2 witness. -/
def c2wOut : List Nat :=
  match write_count_and_sort (List.replicate 76 1) none 2 with
  | .ok o => o
  | .error _ => []

/-- Witness for the amended C2 at concrete buffers and digests. -/
theorem claim_c2_store_invariant_witness :
    ((2 : Nat) < 2 ^ 32 ∧
      write_count_and_sort (List.replicate 76 1) none 2 = .ok c2wOut ∧
      (List.replicate 76 0 ++ [1, 2, 3]).length =
        (List.replicate 76 0 ++ [9, 9, 9]).length ∧
      (List.replicate 76 0 ++ [1, 2, 3]).take
          (HEAD_SIZE + SIG_SIZE *
            headerCount ((List.replicate 76 0 ++ [1, 2, 3]).take HEAD_SIZE)) =
        (List.replicate 76 0 ++ [9, 9, 9]).take
          (HEAD_SIZE + SIG_SIZE *
            headerCount ((List.replicate 76 0 ++ [1, 2, 3]).take HEAD_SIZE))) ∧
    List.Pairwise bleP ((slots c2wOut).take (headerCount (c2wOut.take HEAD_SIZE))) ∧
    (find_sighash c2wOut (List.replicate 32 1) = .ok true ↔
      List.replicate 32 1 ∈ (slots c2wOut).take (headerCount (c2wOut.take HEAD_SIZE))) ∧
    find_sighash (List.replicate 76 0 ++ [1, 2, 3]) (List.replicate 32 2) =
      find_sighash (List.replicate 76 0 ++ [9, 9, 9]) (List.replicate 32 2) := by
  refine ⟨⟨by norm_num, by decide, by decide, ?hpre⟩, ?_, ?_, ?_⟩
  case hpre => decide
  · exact (claim_c2_store_invariant.1 (List.replicate 76 1) none 2 c2wOut
      (by norm_num) (by decide)).1
  · exact (claim_c2_store_invariant.1 (List.replicate 76 1) none 2 c2wOut
      (by norm_num) (by decide)).2 (List.replicate 32 1)
  · exact claim_c2_store_invariant.2 (List.replicate 76 0 ++ [1, 2, 3])
      (List.replicate 76 0 ++ [9, 9, 9]) (List.replicate 32 2)
      (by decide) (by decide)

/-- Entry used by the C8 witness. -/
def wEntry : Entry :=
  ⟨List.replicate 64 1, List.replicate 32 2, List.replicate 40 3⟩

/-- Witness for the amended C8 at a concrete entry list and budget. -/
theorem claim_c8_batching_witness :
    (updateBatches 400 [wEntry, wEntry, wEntry] =
        some [[wEntry, wEntry], [wEntry]] ∧
      ([wEntry, wEntry] : List Entry) ≠ [] ∧
      updateStep 400 [wEntry, wEntry] = .batch [wEntry, wEntry] []) ∧
    ([[wEntry, wEntry], [wEntry]] : List (List Entry)).flatten =
      [wEntry, wEntry, wEntry] ∧
    (([wEntry, wEntry] : List Entry) = [wEntry, wEntry] ++ [] ∧
      ([wEntry, wEntry] : List Entry) ≠ [] ∧
      (2 + sizeSum [wEntry, wEntry] ≤ 400 ∨
        ([wEntry, wEntry] : List Entry).length = 1) ∧
      (∀ k, k ≤ ([wEntry, wEntry] : List Entry).length →
        2 + sizeSum (([wEntry, wEntry] : List Entry).take k) ≤ 400 →
        k ≤ ([wEntry, wEntry] : List Entry).length)) :=
  ⟨⟨by decide, by decide, by decide⟩,
    (claim_c8_batching 400).1 [wEntry, wEntry, wEntry]
      [[wEntry, wEntry], [wEntry]] (by decide),
    (claim_c8_batching 400).2.1 [wEntry, wEntry] (by decide)
      [wEntry, wEntry] [] (by decide)⟩

/-- The entry list of the C8 counterexample: 256 empty-message entries. -/
def c8Entries : List Entry := List.replicate 256 dEntry

set_option maxRecDepth 4000 in
/-- C8 counterexample: with the (legal, `u16`-representable) byte budget
65535, the 256 empty-message entries together cost `2 + 256 * 110`
bytes, well within the budget, so the first forced batch is all 256
entries; `new_instruction` rejects it (`u8::try_from(256)` fails) and
`UpdateIter::next` panics on its `unwrap` instead of consuming and
yielding the run, so the steps' runs cannot concatenate back to the
input as the claim states for every entry list and budget. -/
theorem claim_c8_counterexample :
    c8Entries ≠ [] ∧
    2 + sizeSum c8Entries ≤ 65535 ∧
    updateStep 65535 c8Entries = .abort ∧
    updateBatches 65535 c8Entries = none := by
  decide

/-! ### Encoder invariant infrastructure -/

theorem position?_some {p : α → Bool} :
    ∀ {l : List α} {i : Nat}, position? p l = some i →
      i < l.length ∧ ∀ d, p (l.getD i d) = true := by
  intro l
  induction l with
  | nil => intro i h; cases h
  | cons x xs ih =>
      intro i h
      simp only [position?] at h
      by_cases hx : p x
      · rw [if_pos hx] at h
        injection h with h
        subst h
        exact ⟨by simp, fun d => by simpa using hx⟩
      · rw [if_neg hx] at h
        rcases ho : position? p xs with _ | j
        · rw [ho] at h; cases h
        · rw [ho] at h
          injection h with h
          subst h
          obtain ⟨h1, h2⟩ := ih ho
          refine ⟨by simp; omega, fun d => ?_⟩
          simpa using h2 d

theorem position?_isSome_iff {p : α → Bool} {l : List α} :
    (position? p l).isSome ↔ ∃ x ∈ l, p x := by
  induction l with
  | nil => simp [position?]
  | cons x xs ih =>
      simp only [position?]
      by_cases hx : p x
      · rw [if_pos hx]
        simp [hx]
      · rw [if_neg hx]
        rcases ho : position? p xs with _ | j <;>
          simp_all

/-- A byte region inside the payload: `off` is an absolute offset (the
payload begins at absolute offset `base`), and the `bs.length` bytes
there equal `bs`. -/
def Region (base : Nat) (p : List Nat) (off : Nat) (bs : List Nat) : Prop :=
  base ≤ off ∧ off + bs.length ≤ base + p.length ∧
    (p.drop (off - base)).take bs.length = bs

theorem take_drop_append {p q : List Nat} {k m : Nat} (h : k + m ≤ p.length) :
    ((p ++ q).drop k).take m = (p.drop k).take m := by
  rw [List.drop_append_of_le_length (by omega)]
  rw [List.take_append_of_le_length (by rw [List.length_drop]; omega)]

theorem Region.extend {base : Nat} {p q : List Nat} {off : Nat} {bs : List Nat}
    (h : Region base p off bs) : Region base (p ++ q) off bs := by
  obtain ⟨h1, h2, h3⟩ := h
  refine ⟨h1, by rw [List.length_append]; omega, ?_⟩
  rw [take_drop_append (by omega)]
  exact h3

theorem Region.new {base : Nat} {p : List Nat} (bs : List Nat) :
    Region base (p ++ bs) (base + p.length) bs := by
  refine ⟨by omega, by rw [List.length_append]; omega, ?_⟩
  rw [Nat.add_sub_cancel_left, List.drop_left]
  exact List.take_of_length_le (le_refl _)

theorem Region.of_isPre {base : Nat} {p : List Nat} {off : Nat}
    {bs bs' : List Nat} (h : Region base p off bs) (hp : bs' <+: bs) :
    Region base p off bs' := by
  obtain ⟨h1, h2, h3⟩ := h
  have hlen : bs'.length ≤ bs.length := hp.length_le
  refine ⟨h1, by omega, ?_⟩
  have : (p.drop (off - base)).take bs'.length =
      ((p.drop (off - base)).take bs.length).take bs'.length := by
    rw [List.take_take, min_eq_left hlen]
  rw [this, h3]
  exact (List.prefix_iff_eq_take.mp hp).symm

theorem getD_take {l : List α} {k i : Nat} (h : i < k) (d : α) :
    (l.take k).getD i d = l.getD i d := by
  rw [List.getD_eq_getElem?_getD, List.getD_eq_getElem?_getD]
  congr 1
  rw [← List.get?_eq_getElem?, ← List.get?_eq_getElem?]
  exact List.get?_take h

theorem getD_append_left {l₁ l₂ : List α} {i : Nat} (h : i < l₁.length) (d : α) :
    (l₁ ++ l₂).getD i d = l₁.getD i d := by
  rw [List.getD_eq_getElem?_getD, List.getD_eq_getElem?_getD]
  congr 1
  rw [List.getElem?_append]
  rw [if_pos h]

/-- What the encoder guarantees about one emitted record: the three
instruction-index fields are `0xFFFF`, the stored message size is the
message length, and the three offsets point at payload regions holding
the signature, public key and message bytes. -/
def RecOk (base : Nat) (payload : List Nat) (e : Entry)
    (r : SignatureOffsets) : Prop :=
  r.signature_instruction_index = 65535 ∧
  r.pubkey_instruction_index = 65535 ∧
  r.message_instruction_index = 65535 ∧
  r.message_size = e.message.length ∧
  Region base payload r.signature_offset e.signature ∧
  Region base payload r.pubkey_offset e.pubkey ∧
  Region base payload r.message_offset e.message

theorem RecOk.extendPayload {base : Nat} {payload q : List Nat} {e : Entry}
    {r : SignatureOffsets} (h : RecOk base payload e r) :
    RecOk base (payload ++ q) e r := by
  obtain ⟨h1, h2, h3, h4, h5, h6, h7⟩ := h
  exact ⟨h1, h2, h3, h4, h5.extend, h6.extend, h7.extend⟩

/-- Loop invariant of `write_instruction_data` after `k` entries. -/
def wiInv (entries : List Entry) (k : Nat) (s : WiState) : Prop :=
  s.prev = entries.take k ∧
  s.recs.length = k ∧
  s.len = (2 + entries.length * OFF_SIZE) + s.payload.length ∧
  s.payload.length ≤ 96 * k +
    ((entries.take k).map (fun e => e.message.length)).sum ∧
  ∀ i, i < k → RecOk (2 + entries.length * OFF_SIZE) s.payload
    (entries.getD i dEntry) (s.recs.getD i dRec)

theorem sum_take_le (f : Entry → Nat) (l : List Entry) (k : Nat) :
    ((l.take k).map f).sum ≤ (l.map f).sum := by
  conv_rhs => rw [← List.take_append_drop k l]
  rw [List.map_append, List.sum_append]
  omega

theorem take_succ_eq {l : List α} {k : Nat} (h : k < l.length) (d : α) :
    l.take (k + 1) = l.take k ++ [l.getD k d] := by
  rw [List.take_succ]
  congr 1
  rw [List.getD_eq_getElem?_getD]
  rw [List.getElem?_eq_getElem h]
  rfl

theorem getD_snoc (l : List α) (x d : α) : (l ++ [x]).getD l.length d = x := by
  rw [List.getD_eq_getElem?_getD, List.getElem?_append_right (le_refl _)]
  simp

theorem getD_mem {l : List α} {i : Nat} (h : i < l.length) (d : α) :
    l.getD i d ∈ l := by
  rw [List.getD_eq_getElem l d h]
  exact List.getElem_mem h

theorem wiStep_eq_ss (s : WiState) (e : Entry) (pos pos2 : Nat)
    (h1 : position? (fun ent => e.message.isPrefixOf ent.message) s.prev = some pos)
    (h2 : position? (fun ent => ent.pubkey = e.pubkey) s.prev = some pos2) :
    wiStep s e =
      ⟨s.recs ++ [⟨s.len % 65536, 65535, (s.recs.getD pos2 dRec).pubkey_offset,
        65535, (s.recs.getD pos dRec).message_offset,
        e.message.length % 65536, 65535⟩],
      s.prev ++ [e], s.payload ++ e.signature, s.len + e.signature.length⟩ := by
  simp only [wiStep, h1, h2]

theorem wiStep_eq_sn (s : WiState) (e : Entry) (pos : Nat)
    (h1 : position? (fun ent => e.message.isPrefixOf ent.message) s.prev = some pos)
    (h2 : position? (fun ent => ent.pubkey = e.pubkey) s.prev = none) :
    wiStep s e =
      ⟨s.recs ++ [⟨s.len % 65536, 65535, (s.len + e.signature.length) % 65536,
        65535, (s.recs.getD pos dRec).message_offset,
        e.message.length % 65536, 65535⟩],
      s.prev ++ [e], (s.payload ++ e.signature) ++ e.pubkey,
      s.len + e.signature.length + e.pubkey.length⟩ := by
  simp only [wiStep, h1, h2]

theorem wiStep_eq_ns (s : WiState) (e : Entry) (pos2 : Nat)
    (h1 : position? (fun ent => e.message.isPrefixOf ent.message) s.prev = none)
    (h2 : position? (fun ent => ent.pubkey = e.pubkey) s.prev = some pos2) :
    wiStep s e =
      ⟨s.recs ++ [⟨(s.len + e.message.length) % 65536, 65535,
        (s.recs.getD pos2 dRec).pubkey_offset, 65535, s.len % 65536,
        e.message.length % 65536, 65535⟩],
      s.prev ++ [e], (s.payload ++ e.message) ++ e.signature,
      s.len + e.message.length + e.signature.length⟩ := by
  simp only [wiStep, h1, h2]

theorem wiStep_eq_nn (s : WiState) (e : Entry)
    (h1 : position? (fun ent => e.message.isPrefixOf ent.message) s.prev = none)
    (h2 : position? (fun ent => ent.pubkey = e.pubkey) s.prev = none) :
    wiStep s e =
      ⟨s.recs ++ [⟨(s.len + e.message.length) % 65536, 65535,
        (s.len + e.message.length + e.signature.length) % 65536, 65535,
        s.len % 65536, e.message.length % 65536, 65535⟩],
      s.prev ++ [e], ((s.payload ++ e.message) ++ e.signature) ++ e.pubkey,
      s.len + e.message.length + e.signature.length + e.pubkey.length⟩ := by
  simp only [wiStep, h1, h2]

theorem recs_snoc_old {base : Nat} {payload tail : List Nat}
    {recs : List SignatureOffsets} {r : SignatureOffsets}
    {entries : List Entry} {k : Nat}
    (hreclen : recs.length = k)
    (hrecs : ∀ i, i < k → RecOk base payload (entries.getD i dEntry)
      (recs.getD i dRec)) :
    ∀ i, i < k → RecOk base (payload ++ tail) (entries.getD i dEntry)
      ((recs ++ [r]).getD i dRec) := by
  intro i hi
  rw [getD_append_left (by omega)]
  exact (hrecs i hi).extendPayload

theorem wiInv_step (entries : List Entry)
    (hwf : ∀ e ∈ entries, EntryWf e)
    (hmsgb : ∀ e ∈ entries, e.message.length ≤ 65535)
    (hcap : 2 + (14 + 64 + 32) * entries.length +
      (entries.map (fun e => e.message.length)).sum ≤ 65535)
    (k : Nat) (hk : k < entries.length) (s : WiState)
    (hinv : wiInv entries k s) :
    wiInv entries (k + 1) (wiStep s (entries.getD k dEntry)) := by
  obtain ⟨hprev, hreclen, hlen, hbound, hrecs⟩ := hinv
  set e := entries.getD k dEntry with he
  have hek : e ∈ entries := getD_mem hk dEntry
  obtain ⟨hsig64, hpk32⟩ := hwf e hek
  have hmsge : e.message.length ≤ 65535 := hmsgb e hek
  have hOFF : OFF_SIZE = 14 := rfl
  rw [hOFF] at hlen
  have hprevlen : s.prev.length = k := by
    rw [hprev, List.length_take]
    omega
  have hsumtake : ((entries.take (k + 1)).map (fun e => e.message.length)).sum =
      ((entries.take k).map (fun e => e.message.length)).sum +
        e.message.length := by
    rw [take_succ_eq hk dEntry, List.map_append, List.sum_append, ← he]
    simp
  have hsumle : ((entries.take (k + 1)).map (fun e => e.message.length)).sum ≤
      (entries.map (fun e => e.message.length)).sum := sum_take_le _ _ _
  have hlenbound : s.len + e.message.length + 96 ≤ 65535 := by
    have h1 := sum_take_le (fun e => e.message.length) entries k
    have hkn : k + 1 ≤ entries.length := hk
    -- s.len = 2 + 14 n + |payload| ≤ 2 + 14 n + 96 k + Σ_k
    -- and 2 + 110 n + Σ ≤ 65535 with 96 (k+1) ≤ 96 n, Σ_{k+1} ≤ Σ
    omega
  have hmsgdup : ∀ pos,
      position? (fun ent => e.message.isPrefixOf ent.message) s.prev = some pos →
      pos < k ∧ Region (2 + entries.length * OFF_SIZE) s.payload
        ((s.recs.getD pos dRec).message_offset) e.message := by
    intro pos hm
    obtain ⟨hlt, hpred⟩ := position?_some hm
    rw [hprevlen] at hlt
    have hpe : s.prev.getD pos dEntry = entries.getD pos dEntry := by
      rw [hprev, getD_take hlt]
    have hpfx : e.message <+: (entries.getD pos dEntry).message := by
      have hx := hpred dEntry
      rw [hpe] at hx
      exact List.isPrefixOf_iff_prefix.mp hx
    obtain ⟨_, _, _, _, _, _, hreg⟩ := hrecs pos hlt
    exact ⟨hlt, hreg.of_isPre hpfx⟩
  have hpkdup : ∀ pos2,
      position? (fun ent => ent.pubkey = e.pubkey) s.prev = some pos2 →
      pos2 < k ∧ Region (2 + entries.length * OFF_SIZE) s.payload
        ((s.recs.getD pos2 dRec).pubkey_offset) e.pubkey := by
    intro pos2 hp
    obtain ⟨hlt, hpred⟩ := position?_some hp
    rw [hprevlen] at hlt
    have hpe : s.prev.getD pos2 dEntry = entries.getD pos2 dEntry := by
      rw [hprev, getD_take hlt]
    have hpk : (entries.getD pos2 dEntry).pubkey = e.pubkey := by
      have hx := hpred dEntry
      rw [hpe] at hx
      exact of_decide_eq_true hx
    obtain ⟨_, _, _, _, _, hreg, _⟩ := hrecs pos2 hlt
    rw [hpk] at hreg
    exact ⟨hlt, hreg⟩
  have hnewrec : ∀ r, (s.recs ++ [r]).getD k dRec = r := by
    intro r
    rw [← hreclen]
    exact getD_snoc _ _ _
  have hbase14 : (2 : Nat) + entries.length * OFF_SIZE =
      2 + entries.length * 14 := by rw [hOFF]
  rcases hm : position? (fun ent => e.message.isPrefixOf ent.message) s.prev
    with _ | pos
  · rcases hp : position? (fun ent => ent.pubkey = e.pubkey) s.prev with _ | pos2
    · -- fresh message, fresh key
      rw [wiStep_eq_nn s e hm hp]
      refine ⟨?_, ?_, ?_, ?_, ?_⟩
      · show s.prev ++ [e] = entries.take (k + 1)
        rw [hprev, take_succ_eq hk dEntry]
      · show (s.recs ++ [_]).length = k + 1
        rw [List.length_append, hreclen]
        rfl
      · show s.len + e.message.length + e.signature.length + e.pubkey.length =
          2 + entries.length * OFF_SIZE +
            (((s.payload ++ e.message) ++ e.signature) ++ e.pubkey).length
        rw [hbase14]
        simp only [List.length_append]
        omega
      · show (((s.payload ++ e.message) ++ e.signature) ++ e.pubkey).length ≤
          96 * (k + 1) +
            ((entries.take (k + 1)).map (fun e => e.message.length)).sum
        simp only [List.length_append]
        omega
      · intro i hik
        rcases Nat.lt_or_ge i k with hik' | hik'
        · rw [List.append_assoc, List.append_assoc]
          exact recs_snoc_old hreclen hrecs i hik'
        · have hieq : i = k := by omega
          subst hieq
          rw [hnewrec, ← he]
          refine ⟨rfl, rfl, rfl, Nat.mod_eq_of_lt (by omega), ?_, ?_, ?_⟩
          · -- signature region at s.len + |message|
            have hoff : (s.len + e.message.length) % 65536 =
                2 + entries.length * OFF_SIZE +
                  (s.payload ++ e.message).length := by
              rw [Nat.mod_eq_of_lt (by omega), hbase14]
              simp only [List.length_append]
              omega
            show Region _ _ ((s.len + e.message.length) % 65536) _
            rw [hoff]
            exact (Region.new e.signature).extend
          · -- pubkey region at s.len + |message| + |signature|
            have hoff : (s.len + e.message.length + e.signature.length) % 65536 =
                2 + entries.length * OFF_SIZE +
                  ((s.payload ++ e.message) ++ e.signature).length := by
              rw [Nat.mod_eq_of_lt (by omega), hbase14]
              simp only [List.length_append]
              omega
            show Region _ _
              ((s.len + e.message.length + e.signature.length) % 65536) _
            rw [hoff]
            exact Region.new e.pubkey
          · -- message region at s.len
            have hoff : s.len % 65536 =
                2 + entries.length * OFF_SIZE + s.payload.length := by
              rw [Nat.mod_eq_of_lt (by omega), hbase14]
              omega
            show Region _ _ (s.len % 65536) _
            rw [hoff]
            exact ((Region.new e.message).extend).extend
    · -- fresh message, deduplicated key
      rw [wiStep_eq_ns s e pos2 hm hp]
      obtain ⟨hpos2k, hregpk⟩ := hpkdup pos2 hp
      refine ⟨?_, ?_, ?_, ?_, ?_⟩
      · show s.prev ++ [e] = entries.take (k + 1)
        rw [hprev, take_succ_eq hk dEntry]
      · show (s.recs ++ [_]).length = k + 1
        rw [List.length_append, hreclen]
        rfl
      · show s.len + e.message.length + e.signature.length =
          2 + entries.length * OFF_SIZE +
            ((s.payload ++ e.message) ++ e.signature).length
        rw [hbase14]
        simp only [List.length_append]
        omega
      · show ((s.payload ++ e.message) ++ e.signature).length ≤
          96 * (k + 1) +
            ((entries.take (k + 1)).map (fun e => e.message.length)).sum
        simp only [List.length_append]
        omega
      · intro i hik
        rcases Nat.lt_or_ge i k with hik' | hik'
        · rw [List.append_assoc]
          exact recs_snoc_old hreclen hrecs i hik'
        · have hieq : i = k := by omega
          subst hieq
          rw [hnewrec, ← he]
          refine ⟨rfl, rfl, rfl, Nat.mod_eq_of_lt (by omega), ?_, ?_, ?_⟩
          · have hoff : (s.len + e.message.length) % 65536 =
                2 + entries.length * OFF_SIZE +
                  (s.payload ++ e.message).length := by
              rw [Nat.mod_eq_of_lt (by omega), hbase14]
              simp only [List.length_append]
              omega
            show Region _ _ ((s.len + e.message.length) % 65536) _
            rw [hoff]
            exact Region.new e.signature
          · show Region _ _ ((s.recs.getD pos2 dRec).pubkey_offset) _
            exact (hregpk.extend).extend
          · have hoff : s.len % 65536 =
                2 + entries.length * OFF_SIZE + s.payload.length := by
              rw [Nat.mod_eq_of_lt (by omega), hbase14]
              omega
            show Region _ _ (s.len % 65536) _
            rw [hoff]
            exact (Region.new e.message).extend
  · rcases hp : position? (fun ent => ent.pubkey = e.pubkey) s.prev with _ | pos2
    · -- deduplicated message, fresh key
      rw [wiStep_eq_sn s e pos hm hp]
      obtain ⟨hposk, hregmsg⟩ := hmsgdup pos hm
      refine ⟨?_, ?_, ?_, ?_, ?_⟩
      · show s.prev ++ [e] = entries.take (k + 1)
        rw [hprev, take_succ_eq hk dEntry]
      · show (s.recs ++ [_]).length = k + 1
        rw [List.length_append, hreclen]
        rfl
      · show s.len + e.signature.length + e.pubkey.length =
          2 + entries.length * OFF_SIZE +
            ((s.payload ++ e.signature) ++ e.pubkey).length
        rw [hbase14]
        simp only [List.length_append]
        omega
      · show ((s.payload ++ e.signature) ++ e.pubkey).length ≤
          96 * (k + 1) +
            ((entries.take (k + 1)).map (fun e => e.message.length)).sum
        simp only [List.length_append]
        omega
      · intro i hik
        rcases Nat.lt_or_ge i k with hik' | hik'
        · rw [List.append_assoc]
          exact recs_snoc_old hreclen hrecs i hik'
        · have hieq : i = k := by omega
          subst hieq
          rw [hnewrec, ← he]
          refine ⟨rfl, rfl, rfl, Nat.mod_eq_of_lt (by omega), ?_, ?_, ?_⟩
          · have hoff : s.len % 65536 =
                2 + entries.length * OFF_SIZE + s.payload.length := by
              rw [Nat.mod_eq_of_lt (by omega), hbase14]
              omega
            show Region _ _ (s.len % 65536) _
            rw [hoff]
            exact (Region.new e.signature).extend
          · have hoff : (s.len + e.signature.length) % 65536 =
                2 + entries.length * OFF_SIZE +
                  (s.payload ++ e.signature).length := by
              rw [Nat.mod_eq_of_lt (by omega), hbase14]
              simp only [List.length_append]
              omega
            show Region _ _ ((s.len + e.signature.length) % 65536) _
            rw [hoff]
            exact Region.new e.pubkey
          · show Region _ _ ((s.recs.getD pos dRec).message_offset) _
            exact (hregmsg.extend).extend
    · -- deduplicated message, deduplicated key
      rw [wiStep_eq_ss s e pos pos2 hm hp]
      obtain ⟨hposk, hregmsg⟩ := hmsgdup pos hm
      obtain ⟨hpos2k, hregpk⟩ := hpkdup pos2 hp
      refine ⟨?_, ?_, ?_, ?_, ?_⟩
      · show s.prev ++ [e] = entries.take (k + 1)
        rw [hprev, take_succ_eq hk dEntry]
      · show (s.recs ++ [_]).length = k + 1
        rw [List.length_append, hreclen]
        rfl
      · show s.len + e.signature.length =
          2 + entries.length * OFF_SIZE + (s.payload ++ e.signature).length
        rw [hbase14]
        simp only [List.length_append]
        omega
      · show (s.payload ++ e.signature).length ≤
          96 * (k + 1) +
            ((entries.take (k + 1)).map (fun e => e.message.length)).sum
        simp only [List.length_append]
        omega
      · intro i hik
        rcases Nat.lt_or_ge i k with hik' | hik'
        · exact recs_snoc_old hreclen hrecs i hik'
        · have hieq : i = k := by omega
          subst hieq
          rw [hnewrec, ← he]
          refine ⟨rfl, rfl, rfl, Nat.mod_eq_of_lt (by omega), ?_, ?_, ?_⟩
          · have hoff : s.len % 65536 =
                2 + entries.length * OFF_SIZE + s.payload.length := by
              rw [Nat.mod_eq_of_lt (by omega), hbase14]
              omega
            show Region _ _ (s.len % 65536) _
            rw [hoff]
            exact Region.new e.signature
          · show Region _ _ ((s.recs.getD pos2 dRec).pubkey_offset) _
            exact hregpk.extend
          · show Region _ _ ((s.recs.getD pos dRec).message_offset) _
            exact hregmsg.extend

theorem wiInv_run (entries : List Entry)
    (hwf : ∀ e ∈ entries, EntryWf e)
    (hmsgb : ∀ e ∈ entries, e.message.length ≤ 65535)
    (hcap : 2 + (14 + 64 + 32) * entries.length +
      (entries.map (fun e => e.message.length)).sum ≤ 65535) :
    ∀ k, k ≤ entries.length →
      wiInv entries k ((entries.take k).foldl wiStep (wiInit entries.length)) := by
  intro k
  induction k with
  | zero =>
      intro _
      refine ⟨rfl, rfl, by simp [wiInit], by simp [wiInit], ?_⟩
      intro i hi
      exact absurd hi (Nat.not_lt_zero i)
  | succ k ih =>
      intro hk1
      have hk : k < entries.length := by omega
      rw [take_succ_eq hk dEntry, List.foldl_append]
      simp only [List.foldl_cons, List.foldl_nil]
      exact wiInv_step entries hwf hmsgb hcap k hk _ (ih (by omega))

theorem wiRun_inv (entries : List Entry)
    (hwf : ∀ e ∈ entries, EntryWf e)
    (hmsgb : ∀ e ∈ entries, e.message.length ≤ 65535)
    (hcap : 2 + (14 + 64 + 32) * entries.length +
      (entries.map (fun e => e.message.length)).sum ≤ 65535) :
    wiInv entries entries.length (wiRun entries) := by
  have := wiInv_run entries hwf hmsgb hcap entries.length (le_refl _)
  rwa [List.take_length] at this

/-! ### Decoding the encoder's output -/

theorem u16at_0 (o : SignatureOffsets) (h : o.signature_offset < 65536) :
    u16at (recBytes o) 0 = o.signature_offset := by
  simp only [u16at, recBytes, toLE, fromLE]
  norm_num
  omega

theorem u16at_1 (o : SignatureOffsets)
    (h : o.signature_instruction_index < 65536) :
    u16at (recBytes o) 1 = o.signature_instruction_index := by
  simp only [u16at, recBytes, toLE, fromLE]
  norm_num [List.drop, List.take]
  omega

theorem u16at_2 (o : SignatureOffsets) (h : o.pubkey_offset < 65536) :
    u16at (recBytes o) 2 = o.pubkey_offset := by
  simp only [u16at, recBytes, toLE, fromLE]
  norm_num [List.drop, List.take]
  omega

theorem u16at_3 (o : SignatureOffsets)
    (h : o.pubkey_instruction_index < 65536) :
    u16at (recBytes o) 3 = o.pubkey_instruction_index := by
  simp only [u16at, recBytes, toLE, fromLE]
  norm_num [List.drop, List.take]
  omega

theorem u16at_4 (o : SignatureOffsets) (h : o.message_offset < 65536) :
    u16at (recBytes o) 4 = o.message_offset := by
  simp only [u16at, recBytes, toLE, fromLE]
  norm_num [List.drop, List.take]
  omega

theorem u16at_5 (o : SignatureOffsets) (h : o.message_size < 65536) :
    u16at (recBytes o) 5 = o.message_size := by
  simp only [u16at, recBytes, toLE, fromLE]
  norm_num [List.drop, List.take]
  omega

theorem u16at_6 (o : SignatureOffsets)
    (h : o.message_instruction_index < 65536) :
    u16at (recBytes o) 6 = o.message_instruction_index := by
  simp only [u16at, recBytes, toLE, fromLE]
  norm_num [List.drop, List.take]
  omega

theorem wi_flatten_length (entries : List Entry) :
    ((wiRun entries).recs.map recBytes).flatten.length =
      14 * (wiRun entries).recs.length := by
  rw [flatten_length_const 14 _ (by
    intro b hb
    obtain ⟨o, _, rfl⟩ := List.mem_map.mp hb
    exact recBytes_length o)]
  rw [List.length_map]

theorem wi_data_length (entries : List Entry)
    (hreclen : (wiRun entries).recs.length = entries.length) :
    (write_instruction_data entries).1.length =
      2 + entries.length * 14 + (wiRun entries).payload.length := by
  show ((entries.length % 256) :: 0 ::
    (((wiRun entries).recs.map recBytes).flatten ++ (wiRun entries).payload)).length = _
  simp only [List.length_cons, List.length_append]
  rw [wi_flatten_length entries, hreclen]
  omega

theorem wi_data_drop (entries : List Entry)
    (hreclen : (wiRun entries).recs.length = entries.length)
    (off : Nat) (hoff : 2 + entries.length * 14 ≤ off) :
    (write_instruction_data entries).1.drop off =
      (wiRun entries).payload.drop (off - (2 + entries.length * 14)) := by
  have h2 : (write_instruction_data entries).1.drop off =
      ((write_instruction_data entries).1.drop 2).drop (off - 2) := by
    rw [List.drop_drop]
    congr 1
    omega
  have h3 : (write_instruction_data entries).1.drop 2 =
      ((wiRun entries).recs.map recBytes).flatten ++ (wiRun entries).payload :=
    rfl
  rw [h2, h3]
  have h4 : (((wiRun entries).recs.map recBytes).flatten ++
      (wiRun entries).payload).drop (off - 2) =
      ((((wiRun entries).recs.map recBytes).flatten ++
        (wiRun entries).payload).drop
          (((wiRun entries).recs.map recBytes).flatten.length)).drop
        (off - 2 - ((wiRun entries).recs.map recBytes).flatten.length) := by
    rw [List.drop_drop]
    congr 1
    rw [wi_flatten_length entries, hreclen]
    omega
  rw [h4, List.drop_left]
  congr 1
  rw [wi_flatten_length entries, hreclen]
  omega

/-- A payload region of the final state appears verbatim in the output
buffer at its absolute offset. -/
theorem wi_region_slice (entries : List Entry)
    (hreclen : (wiRun entries).recs.length = entries.length)
    {off : Nat} {bs : List Nat}
    (hr : Region (2 + entries.length * OFF_SIZE) (wiRun entries).payload off bs) :
    ((write_instruction_data entries).1.drop off).take bs.length = bs ∧
      off + bs.length ≤ (write_instruction_data entries).1.length := by
  obtain ⟨h1, h2, h3⟩ := hr
  have hOFF : OFF_SIZE = 14 := rfl
  rw [hOFF] at h1 h2
  constructor
  · rw [wi_data_drop entries hreclen off h1]
    exact h3
  · rw [wi_data_length entries hreclen]
    omega

theorem wi_decode_record (entries : List Entry)
    (hwf : ∀ e ∈ entries, EntryWf e)
    (hmsgb : ∀ e ∈ entries, e.message.length ≤ 65535)
    (hcap : 2 + (14 + 64 + 32) * entries.length +
      (entries.map (fun e => e.message.length)).sum ≤ 65535)
    (i : Nat) (hi : i < entries.length) :
    decode_entry (write_instruction_data entries).1
      (recBytes ((wiRun entries).recs.getD i dRec)) =
      .ok (entries.getD i dEntry) := by
  obtain ⟨hprev, hreclen, hlen, hbound, hrecs⟩ := wiRun_inv entries hwf hmsgb hcap
  obtain ⟨hx1, hx2, hx3, hx4, hreg_s, hreg_p, hreg_m⟩ := hrecs i hi
  obtain ⟨hsig64, hpk32⟩ := hwf (entries.getD i dEntry) (getD_mem hi dEntry)
  have hOFF : OFF_SIZE = 14 := rfl
  rw [hOFF] at hlen
  rw [List.take_length] at hbound
  have hcapn : (wiRun entries).len ≤ 65535 := by
    rw [hlen]
    omega
  have hb_s := hreg_s.2.1
  have hb_p := hreg_p.2.1
  have hb_m := hreg_m.2.1
  rw [hOFF] at hb_s hb_p hb_m
  rw [hsig64] at hb_s
  rw [hpk32] at hb_p
  simp only [decode_entry]
  rw [u16at_1 _ (by rw [hx1]; omega), u16at_3 _ (by rw [hx2]; omega),
    u16at_6 _ (by rw [hx3]; omega), hx1, hx2, hx3]
  rw [if_neg (by simp)]
  rw [u16at_0 _ (by omega), u16at_2 _ (by omega), u16at_4 _ (by
    have := hmsgb (entries.getD i dEntry) (getD_mem hi dEntry)
    omega), u16at_5 _ (by
    rw [hx4]
    have := hmsgb (entries.getD i dEntry) (getD_mem hi dEntry)
    omega)]
  have hga : getArr 64 (write_instruction_data entries).1
      ((wiRun entries).recs.getD i dRec).signature_offset =
      some (entries.getD i dEntry).signature := by
    obtain ⟨hsl, hlb⟩ := wi_region_slice entries hreclen hreg_s
    unfold getArr
    rw [if_pos (by rw [hsig64] at hlb; exact hlb)]
    rw [← hsig64]
    exact congrArg some hsl
  have hgp : getArr 32 (write_instruction_data entries).1
      ((wiRun entries).recs.getD i dRec).pubkey_offset =
      some (entries.getD i dEntry).pubkey := by
    obtain ⟨hsl, hlb⟩ := wi_region_slice entries hreclen hreg_p
    unfold getArr
    rw [if_pos (by rw [hpk32] at hlb; exact hlb)]
    rw [← hpk32]
    exact congrArg some hsl
  have hgm : getSlice (write_instruction_data entries).1
      ((wiRun entries).recs.getD i dRec).message_offset
      ((wiRun entries).recs.getD i dRec).message_size =
      some (entries.getD i dEntry).message := by
    obtain ⟨hsl, hlb⟩ := wi_region_slice entries hreclen hreg_m
    unfold getSlice
    rw [hx4]
    rw [if_pos hlb]
    exact congrArg some hsl
  rw [hga, hgp, hgm]

theorem wi_parse (entries : List Entry) (hn : entries.length ≤ 255)
    (hreclen : (wiRun entries).recs.length = entries.length) :
    parse_data (write_instruction_data entries).1 =
      some ((wiRun entries).recs.map recBytes) := by
  have hlenmap : ((wiRun entries).recs.map recBytes).length = entries.length := by
    rw [List.length_map, hreclen]
  show parse_data ((entries.length % 256) :: 0 ::
    (((wiRun entries).recs.map recBytes).flatten ++ (wiRun entries).payload)) = _
  simp only [parse_data]
  rw [if_pos trivial]
  rw [asChunks_blocks 14 (by norm_num) _ (by
    intro b hb
    obtain ⟨o, _, rfl⟩ := List.mem_map.mp hb
    exact recBytes_length o) _]
  have hcnt : entries.length % 256 = entries.length :=
    Nat.mod_eq_of_lt (by omega)
  rw [hcnt]
  rw [if_pos (by rw [List.length_append, hlenmap]; omega)]
  congr 1
  rw [List.take_append_of_le_length (by rw [hlenmap])]
  rw [List.take_of_length_le (by rw [hlenmap])]

theorem wi_parseResults (entries : List Entry)
    (hwf : ∀ e ∈ entries, EntryWf e)
    (hn : entries.length ≤ 255)
    (hmsgb : ∀ e ∈ entries, e.message.length ≤ 65535)
    (hcap : 2 + (14 + 64 + 32) * entries.length +
      (entries.map (fun e => e.message.length)).sum ≤ 65535) :
    parseResults (write_instruction_data entries).1 =
      some (entries.map Except.ok) := by
  have hreclen := (wiRun_inv entries hwf hmsgb hcap).2.1
  unfold parseResults
  rw [wi_parse entries hn hreclen]
  show some _ = some _
  congr 1
  rw [List.map_map]
  apply List.ext_get?
  intro i
  rcases Nat.lt_or_ge i entries.length with hi | hi
  · rw [List.get?_map, List.get?_map]
    rw [List.get?_eq_get (show i < (wiRun entries).recs.length by omega),
      List.get?_eq_get hi]
    have h1 : (wiRun entries).recs.get ⟨i, by omega⟩ =
        (wiRun entries).recs.getD i dRec := by
      rw [List.getD_eq_getElem _ dRec (by omega)]
      rfl
    have h2 : entries.get ⟨i, hi⟩ = entries.getD i dEntry := by
      rw [List.getD_eq_getElem _ dEntry hi]
      rfl
    simp only [Option.map_some', Function.comp]
    rw [h1, h2]
    exact congrArg some (wi_decode_record entries hwf hmsgb hcap i hi)
  · rw [List.get?_eq_none.mpr (by rw [List.length_map, hreclen]; omega),
      List.get?_eq_none.mpr (by rw [List.length_map]; omega)]

/-- C1: under the encoder's documented limits, encoding succeeds and
decoding the produced instruction data yields exactly the original
entries, in order, as `Ok` results. -/
theorem claim_c1_roundtrip (entries : List Entry)
    (hwf : ∀ e ∈ entries, EntryWf e)
    (hn : entries.length ≤ 255)
    (hmsgb : ∀ e ∈ entries, e.message.length ≤ 65535)
    (hcap : 2 + (14 + 64 + 32) * entries.length +
      (entries.map (fun e => e.message.length)).sum ≤ 65535) :
    ∃ data, new_instruction_data entries = some data ∧
      parseResults data = some (entries.map Except.ok) := by
  refine ⟨(write_instruction_data entries).1, ?_,
    wi_parseResults entries hwf hn hmsgb hcap⟩
  unfold new_instruction_data
  rw [if_pos hn]
  have hOFF : OFF_SIZE = 14 := rfl
  have hcap0 : (2 + (OFF_SIZE + 64 + 32) * entries.length) % 65536 =
      2 + (14 + 64 + 32) * entries.length := by
    rw [hOFF]
    exact Nat.mod_eq_of_lt (by omega)
  rw [hcap0]
  rcases hcf : capFold (2 + (14 + 64 + 32) * entries.length) entries with _ | v
  · exfalso
    exact (capFold_none_iff entries _ (by omega)).mp hcf ⟨hmsgb, by omega⟩
  · rfl

/-- Witness for C1 with deduplication triggering on both the message (a
byte-prefix of an earlier message) and the public key. -/
theorem claim_c1_roundtrip_witness :
    ((∀ e ∈ [(⟨List.replicate 64 7, List.replicate 32 9, [1, 2, 3]⟩ : Entry),
        ⟨List.replicate 64 8, List.replicate 32 9, [1, 2]⟩], EntryWf e) ∧
      ([(⟨List.replicate 64 7, List.replicate 32 9, [1, 2, 3]⟩ : Entry),
        ⟨List.replicate 64 8, List.replicate 32 9, [1, 2]⟩] : List Entry).length ≤ 255 ∧
      (∀ e ∈ [(⟨List.replicate 64 7, List.replicate 32 9, [1, 2, 3]⟩ : Entry),
        ⟨List.replicate 64 8, List.replicate 32 9, [1, 2]⟩], e.message.length ≤ 65535) ∧
      2 + (14 + 64 + 32) * ([(⟨List.replicate 64 7, List.replicate 32 9, [1, 2, 3]⟩ : Entry),
        ⟨List.replicate 64 8, List.replicate 32 9, [1, 2]⟩] : List Entry).length +
        (([(⟨List.replicate 64 7, List.replicate 32 9, [1, 2, 3]⟩ : Entry),
          ⟨List.replicate 64 8, List.replicate 32 9, [1, 2]⟩] : List Entry).map
            (fun e => e.message.length)).sum ≤ 65535) ∧
    (∃ data, new_instruction_data
        [(⟨List.replicate 64 7, List.replicate 32 9, [1, 2, 3]⟩ : Entry),
          ⟨List.replicate 64 8, List.replicate 32 9, [1, 2]⟩] = some data ∧
      parseResults data = some
        (([(⟨List.replicate 64 7, List.replicate 32 9, [1, 2, 3]⟩ : Entry),
          ⟨List.replicate 64 8, List.replicate 32 9, [1, 2]⟩] : List Entry).map
            Except.ok)) :=
  ⟨⟨by decide, by decide, by decide, by decide⟩,
    claim_c1_roundtrip _ (by decide) (by decide) (by decide) (by decide)⟩

/-- C9: whenever `new_instruction_data` accepts the entries, the buffer
it hands back holds exactly the `len` bytes the writer reports
(every byte below `len` was written), and that `len` never exceeds the
worst-case capacity the function allocated. -/
theorem claim_c9_writer_safety (entries : List Entry) (data : List Nat)
    (hwf : ∀ e ∈ entries, EntryWf e)
    (h : new_instruction_data entries = some data) :
    data = (write_instruction_data entries).1 ∧
    data.length = (write_instruction_data entries).2 ∧
    (write_instruction_data entries).2 ≤ 2 + (14 + 64 + 32) * entries.length +
      (entries.map (fun e => e.message.length)).sum := by
  unfold new_instruction_data at h
  by_cases hn : entries.length ≤ 255
  · rw [if_pos hn] at h
    have hOFF : OFF_SIZE = 14 := rfl
    have hcap0 : (2 + (OFF_SIZE + 64 + 32) * entries.length) % 65536 =
        2 + (14 + 64 + 32) * entries.length := by
      rw [hOFF]
      exact Nat.mod_eq_of_lt (by omega)
    rw [hcap0] at h
    rcases hcf : capFold (2 + (14 + 64 + 32) * entries.length) entries with _ | v
    · rw [hcf] at h
      cases h
    · rw [hcf] at h
      injection h with h
      have hok : (∀ e ∈ entries, e.message.length ≤ 65535) ∧
          2 + (14 + 64 + 32) * entries.length +
            (entries.map (fun e => e.message.length)).sum ≤ 65535 := by
        by_contra hc
        rw [(capFold_none_iff entries _ (by omega)).mpr hc] at hcf
        cases hcf
      obtain ⟨hmsgb, hcap⟩ := hok
      obtain ⟨hprev, hreclen, hlen, hbound, _⟩ :=
        wiRun_inv entries hwf hmsgb hcap
      rw [List.take_length] at hbound
      rw [hOFF] at hlen
      refine ⟨h.symm, ?_, ?_⟩
      · rw [← h]
        show (write_instruction_data entries).1.length = (wiRun entries).len
        rw [wi_data_length entries hreclen, hlen]
      · show (wiRun entries).len ≤ _
        omega
  · rw [if_neg hn] at h
    cases h

/-- Witness for C9. -/
theorem claim_c9_writer_safety_witness :
    ((∀ e ∈ [(⟨List.replicate 64 7, List.replicate 32 9, [1, 2, 3]⟩ : Entry)],
        EntryWf e) ∧
      new_instruction_data [(⟨List.replicate 64 7, List.replicate 32 9, [1, 2, 3]⟩ : Entry)] =
        some (write_instruction_data
          [(⟨List.replicate 64 7, List.replicate 32 9, [1, 2, 3]⟩ : Entry)]).1) ∧
    ((write_instruction_data
        [(⟨List.replicate 64 7, List.replicate 32 9, [1, 2, 3]⟩ : Entry)]).1 =
      (write_instruction_data
        [(⟨List.replicate 64 7, List.replicate 32 9, [1, 2, 3]⟩ : Entry)]).1 ∧
    (write_instruction_data
        [(⟨List.replicate 64 7, List.replicate 32 9, [1, 2, 3]⟩ : Entry)]).1.length =
      (write_instruction_data
        [(⟨List.replicate 64 7, List.replicate 32 9, [1, 2, 3]⟩ : Entry)]).2 ∧
    (write_instruction_data
        [(⟨List.replicate 64 7, List.replicate 32 9, [1, 2, 3]⟩ : Entry)]).2 ≤
      2 + (14 + 64 + 32) *
        ([(⟨List.replicate 64 7, List.replicate 32 9, [1, 2, 3]⟩ : Entry)] : List Entry).length +
        (([(⟨List.replicate 64 7, List.replicate 32 9, [1, 2, 3]⟩ : Entry)] : List Entry).map
          (fun e => e.message.length)).sum) :=
  ⟨⟨by decide, by decide⟩,
    claim_c9_writer_safety _ _ (by decide) (by decide)⟩

/-- Encoder state after processing the first `k` entries. -/
def stateAt (entries : List Entry) (k : Nat) : WiState :=
  (entries.take k).foldl wiStep (wiInit entries.length)

theorem stateAt_succ (entries : List Entry) {j : Nat} (hj : j < entries.length) :
    stateAt entries (j + 1) = wiStep (stateAt entries j) (entries.getD j dEntry) := by
  unfold stateAt
  rw [take_succ_eq hj dEntry, List.foldl_append]
  simp

/-- C7: per-entry deduplication behaviour of the encoder.  For entry `j`:
the payload grows by an optional copy of the message, always a fresh copy
of the signature, and an optional copy of the public key; the message
(resp. key) copy is skipped exactly when an earlier entry's message has
entry `j`'s message as a byte-prefix (resp. has an identical key), in
which case the emitted record reuses the matching earlier record's
message (resp. key) offset, keeping entry `j`'s own message length; and
decoding the final instruction data still recovers entry `j` exactly. -/
theorem claim_c7_dedup (entries : List Entry)
    (hwf : ∀ e ∈ entries, EntryWf e)
    (hn : entries.length ≤ 255)
    (hmsgb : ∀ e ∈ entries, e.message.length ≤ 65535)
    (hcap : 2 + (14 + 64 + 32) * entries.length +
      (entries.map (fun e => e.message.length)).sum ≤ 65535)
    (j : Nat) (hj : j < entries.length) :
    (∃ mPart kPart,
      (stateAt entries (j + 1)).payload =
        (stateAt entries j).payload ++ mPart ++
          ((entries.getD j dEntry).signature ++ kPart) ∧
      (mPart = [] ∨ mPart = (entries.getD j dEntry).message) ∧
      (kPart = [] ∨ kPart = (entries.getD j dEntry).pubkey) ∧
      ((∃ i, i < j ∧ (entries.getD j dEntry).message <+:
          (entries.getD i dEntry).message) → mPart = []) ∧
      ((∃ i, i < j ∧ (entries.getD i dEntry).pubkey =
          (entries.getD j dEntry).pubkey) → kPart = [])) ∧
    ((∃ i, i < j ∧ (entries.getD j dEntry).message <+:
        (entries.getD i dEntry).message) →
      (position? (fun ent => (entries.getD j dEntry).message.isPrefixOf ent.message)
        (entries.take j)).isSome) ∧
    (∀ pos, position? (fun ent => (entries.getD j dEntry).message.isPrefixOf ent.message)
        (entries.take j) = some pos →
      ((stateAt entries (j + 1)).recs.getD j dRec).message_offset =
        ((stateAt entries j).recs.getD pos dRec).message_offset ∧
      ((stateAt entries (j + 1)).recs.getD j dRec).message_size =
        (entries.getD j dEntry).message.length) ∧
    (∀ pos2, position? (fun ent => ent.pubkey = (entries.getD j dEntry).pubkey)
        (entries.take j) = some pos2 →
      ((stateAt entries (j + 1)).recs.getD j dRec).pubkey_offset =
        ((stateAt entries j).recs.getD pos2 dRec).pubkey_offset) ∧
    (∃ results, parseResults (write_instruction_data entries).1 = some results ∧
      results.getD j (.error .BadData) = .ok (entries.getD j dEntry)) := by
  have hinvj : wiInv entries j (stateAt entries j) :=
    wiInv_run entries hwf hmsgb hcap j (by omega)
  obtain ⟨hprev, hreclen, hlen, hbound, hrecs⟩ := hinvj
  have hstep := stateAt_succ entries hj
  have hsP : (stateAt entries j).prev = entries.take j := hprev
  have hmsge : (entries.getD j dEntry).message.length ≤ 65535 :=
    hmsgb _ (getD_mem hj dEntry)
  have htakelen : (entries.take j).length = j := by
    rw [List.length_take]
    omega
  have hnewrec : ∀ r, ((stateAt entries j).recs ++ [r]).getD j dRec = r := by
    intro r
    have h := getD_snoc (stateAt entries j).recs r dRec
    rwa [hreclen] at h
  have hmemdup : ∀ i, i < j → (entries.getD i dEntry) ∈ entries.take j := by
    intro i hij
    have := getD_mem (l := entries.take j) (by omega : i < (entries.take j).length) dEntry
    rwa [getD_take hij] at this
  -- existence of a first match when any match exists
  have hfindmsg : (∃ i, i < j ∧ (entries.getD j dEntry).message <+:
      (entries.getD i dEntry).message) →
      (position? (fun ent => (entries.getD j dEntry).message.isPrefixOf ent.message)
        (entries.take j)).isSome := by
    rintro ⟨i, hij, hpfx⟩
    rw [position?_isSome_iff]
    exact ⟨entries.getD i dEntry, hmemdup i hij,
      List.isPrefixOf_iff_prefix.mpr hpfx⟩
  have hfindpk : (∃ i, i < j ∧ (entries.getD i dEntry).pubkey =
      (entries.getD j dEntry).pubkey) →
      (position? (fun ent => ent.pubkey = (entries.getD j dEntry).pubkey)
        (entries.take j)).isSome := by
    rintro ⟨i, hij, hpk⟩
    rw [position?_isSome_iff]
    exact ⟨entries.getD i dEntry, hmemdup i hij, decide_eq_true hpk⟩
  have hparse : ∃ results,
      parseResults (write_instruction_data entries).1 = some results ∧
      results.getD j (.error .BadData) = .ok (entries.getD j dEntry) := by
    refine ⟨entries.map Except.ok, wi_parseResults entries hwf hn hmsgb hcap, ?_⟩
    rw [List.getD_eq_getElem _ _ (by rw [List.length_map]; omega)]
    rw [List.getElem_map]
    rw [← List.getD_eq_getElem entries dEntry hj]
  rcases hm : position?
      (fun ent => (entries.getD j dEntry).message.isPrefixOf ent.message)
      (stateAt entries j).prev with _ | pos
  · rcases hp : position? (fun ent => ent.pubkey = (entries.getD j dEntry).pubkey)
        (stateAt entries j).prev with _ | pos2
    · -- fresh message, fresh key
      rw [hstep, wiStep_eq_nn _ _ hm hp]
      refine ⟨⟨(entries.getD j dEntry).message, (entries.getD j dEntry).pubkey,
        by simp, Or.inr rfl, Or.inr rfl, ?_, ?_⟩, hfindmsg, ?_, ?_, hparse⟩
      · intro hdup
        have := hfindmsg hdup
        rw [← hsP, hm] at this
        cases this
      · intro hdup
        have := hfindpk hdup
        rw [← hsP, hp] at this
        cases this
      · intro pos hpos
        rw [← hsP, hm] at hpos
        cases hpos
      · intro pos2 hpos2
        rw [← hsP, hp] at hpos2
        cases hpos2
    · -- fresh message, deduplicated key
      rw [hstep, wiStep_eq_ns _ _ pos2 hm hp]
      refine ⟨⟨(entries.getD j dEntry).message, [],
        by simp, Or.inr rfl, Or.inl rfl, ?_, fun _ => rfl⟩, hfindmsg, ?_, ?_, hparse⟩
      · intro hdup
        have := hfindmsg hdup
        rw [← hsP, hm] at this
        cases this
      · intro pos hpos
        rw [← hsP, hm] at hpos
        cases hpos
      · intro p2 hpos2
        rw [← hsP, hp] at hpos2
        injection hpos2 with hpos2
        subst hpos2
        rw [hnewrec]
  · rcases hp : position? (fun ent => ent.pubkey = (entries.getD j dEntry).pubkey)
        (stateAt entries j).prev with _ | pos2
    · -- deduplicated message, fresh key
      rw [hstep, wiStep_eq_sn _ _ pos hm hp]
      refine ⟨⟨[], (entries.getD j dEntry).pubkey,
        by simp, Or.inl rfl, Or.inr rfl, fun _ => rfl, ?_⟩, hfindmsg, ?_, ?_, hparse⟩
      · intro hdup
        have := hfindpk hdup
        rw [← hsP, hp] at this
        cases this
      · intro p hpos
        rw [← hsP, hm] at hpos
        injection hpos with hpos
        subst hpos
        rw [hnewrec]
        exact ⟨rfl, Nat.mod_eq_of_lt (by omega)⟩
      · intro p2 hpos2
        rw [← hsP, hp] at hpos2
        cases hpos2
    · -- deduplicated message, deduplicated key
      rw [hstep, wiStep_eq_ss _ _ pos pos2 hm hp]
      refine ⟨⟨[], [], by simp, Or.inl rfl, Or.inl rfl,
        fun _ => rfl, fun _ => rfl⟩, hfindmsg, ?_, ?_, hparse⟩
      · intro p hpos
        rw [← hsP, hm] at hpos
        injection hpos with hpos
        subst hpos
        rw [hnewrec]
        exact ⟨rfl, Nat.mod_eq_of_lt (by omega)⟩
      · intro p2 hpos2
        rw [← hsP, hp] at hpos2
        injection hpos2 with hpos2
        subst hpos2
        rw [hnewrec]

/-- Entries used by the C7 witness: the second entry's message is a
byte-prefix of the first's and both share a public key. -/
def c7Entries : List Entry :=
  [⟨List.replicate 64 7, List.replicate 32 9, [1, 2, 3]⟩,
   ⟨List.replicate 64 8, List.replicate 32 9, [1, 2]⟩]

/-- Witness for C7 at the concrete entry list, index 1. -/
theorem claim_c7_dedup_witness :
    ((∀ e ∈ c7Entries, EntryWf e) ∧ c7Entries.length ≤ 255 ∧
      (∀ e ∈ c7Entries, e.message.length ≤ 65535) ∧
      2 + (14 + 64 + 32) * c7Entries.length +
        (c7Entries.map (fun e => e.message.length)).sum ≤ 65535 ∧
      1 < c7Entries.length) ∧
    ((∃ mPart kPart,
      (stateAt c7Entries (1 + 1)).payload =
        (stateAt c7Entries 1).payload ++ mPart ++
          ((c7Entries.getD 1 dEntry).signature ++ kPart) ∧
      (mPart = [] ∨ mPart = (c7Entries.getD 1 dEntry).message) ∧
      (kPart = [] ∨ kPart = (c7Entries.getD 1 dEntry).pubkey) ∧
      ((∃ i, i < 1 ∧ (c7Entries.getD 1 dEntry).message <+:
          (c7Entries.getD i dEntry).message) → mPart = []) ∧
      ((∃ i, i < 1 ∧ (c7Entries.getD i dEntry).pubkey =
          (c7Entries.getD 1 dEntry).pubkey) → kPart = [])) ∧
    ((∃ i, i < 1 ∧ (c7Entries.getD 1 dEntry).message <+:
        (c7Entries.getD i dEntry).message) →
      (position? (fun ent => (c7Entries.getD 1 dEntry).message.isPrefixOf ent.message)
        (c7Entries.take 1)).isSome) ∧
    (∀ pos, position? (fun ent => (c7Entries.getD 1 dEntry).message.isPrefixOf ent.message)
        (c7Entries.take 1) = some pos →
      ((stateAt c7Entries (1 + 1)).recs.getD 1 dRec).message_offset =
        ((stateAt c7Entries 1).recs.getD pos dRec).message_offset ∧
      ((stateAt c7Entries (1 + 1)).recs.getD 1 dRec).message_size =
        (c7Entries.getD 1 dEntry).message.length) ∧
    (∀ pos2, position? (fun ent => ent.pubkey = (c7Entries.getD 1 dEntry).pubkey)
        (c7Entries.take 1) = some pos2 →
      ((stateAt c7Entries (1 + 1)).recs.getD 1 dRec).pubkey_offset =
        ((stateAt c7Entries 1).recs.getD pos2 dRec).pubkey_offset) ∧
    (∃ results, parseResults (write_instruction_data c7Entries).1 = some results ∧
      results.getD 1 (.error .BadData) = .ok (c7Entries.getD 1 dEntry))) :=
  ⟨⟨by decide, by decide, by decide, by decide, by decide⟩,
    claim_c7_dedup c7Entries (by decide) (by decide) (by decide) (by decide)
      1 (by decide)⟩

/-! ### C5: full characterisation of the parser -/

theorem decode_entry_char (data rec14 : List Nat) :
    decode_entry data rec14 =
      if u16at rec14 1 ≠ 65535 ∨ u16at rec14 3 ≠ 65535 ∨
          u16at rec14 6 ≠ 65535 then
        .error .UnsupportedFeature
      else if data.length < u16at rec14 0 + 64 ∨
          data.length < u16at rec14 2 + 32 ∨
          data.length < u16at rec14 4 + u16at rec14 5 then
        .error .BadData
      else .ok ⟨(data.drop (u16at rec14 0)).take 64,
        (data.drop (u16at rec14 2)).take 32,
        (data.drop (u16at rec14 4)).take (u16at rec14 5)⟩ := by
  unfold decode_entry getArr getSlice
  by_cases hix : u16at rec14 1 ≠ 65535 ∨ u16at rec14 3 ≠ 65535 ∨
      u16at rec14 6 ≠ 65535
  · rw [if_pos hix, if_pos hix]
  · rw [if_neg hix, if_neg hix]
    split_ifs with h1 h2 h3 h4 h5 h6 h7 <;> first | rfl | omega

theorem parse_none_iff (data : List Nat) :
    parse_data data = none ↔
      data.length < 2 ∨ data.getD 1 0 ≠ 0 ∨
        data.length - 2 < 14 * data.getD 0 0 := by
  match data with
  | [] => simp [parse_data]
  | [x] => simp [parse_data]
  | c :: z :: rest =>
      simp only [parse_data]
      by_cases hz : z = 0
      · rw [if_pos hz]
        rw [asChunks_length 14 rest (by norm_num)]
        by_cases hc : c ≤ rest.length / 14
        · rw [if_pos hc]
          have h14 : 14 * c ≤ rest.length := by
            rw [Nat.le_div_iff_mul_le (by norm_num)] at hc
            omega
          apply iff_of_false
          · simp
          · push_neg
            refine ⟨by simp, by simp [hz], ?_⟩
            simp only [List.length_cons, List.getD_cons_zero]
            omega
        · rw [if_neg hc]
          have h14 : rest.length < 14 * c := by
            rw [Nat.le_div_iff_mul_le (by norm_num)] at hc
            omega
          apply iff_of_true rfl
          right
          right
          simp only [List.length_cons, List.getD_cons_zero]
          omega
      · rw [if_neg hz]
        apply iff_of_true rfl
        right
        left
        simpa using hz

theorem parse_some_char (data : List Nat) {records : List (List Nat)}
    (h : parse_data data = some records) :
    records.length = data.getD 0 0 ∧
    ∀ i, i < data.getD 0 0 →
      records.getD i [] = ((data.drop 2).drop (14 * i)).take 14 := by
  match data with
  | [] => cases h
  | [x] => cases h
  | c :: z :: rest =>
      simp only [parse_data] at h
      by_cases hz : z = 0
      · rw [if_pos hz] at h
        by_cases hc : c ≤ (asChunks 14 rest).1.length
        · rw [if_pos hc] at h
          injection h with h
          subst h
          rw [asChunks_length 14 rest (by norm_num)] at hc
          have h14 : 14 * c ≤ rest.length := by
            rw [Nat.le_div_iff_mul_le (by norm_num)] at hc
            omega
          constructor
          · simp only [List.getD_cons_zero, List.length_take]
            rw [asChunks_length 14 rest (by norm_num)]
            omega
          · intro i hi
            simp only [List.getD_cons_zero] at hi
            rw [getD_take hi]
            have hget := asChunks_get 14 (by norm_num) rest i
            rw [if_pos (by omega)] at hget
            show (asChunks 14 rest).1.getD i [] = (rest.drop (14 * i)).take 14
            rw [List.getD_eq_getElem?_getD]
            rw [← List.get?_eq_getElem?]
            rw [hget]
            rfl
        · rw [if_neg hc] at h
          cases h
      · rw [if_neg hz] at h
        cases h

/-- C5: `parse_data` fails exactly on a short header, a non-zero second
byte, or fewer than `count * 14` record bytes; on success the iterator
yields `count` results, each record producing `UnsupportedFeature` when
an instruction-index field differs from `0xFFFF`, `BadData` when a
resolved slice falls outside the data, and otherwise the entry whose
fields are the referenced bytes of the data itself. -/
theorem claim_c5_parse (data : List Nat) :
    (parseResults data = none ↔
      data.length < 2 ∨ data.getD 1 0 ≠ 0 ∨
        data.length - 2 < 14 * data.getD 0 0) ∧
    ∀ results, parseResults data = some results →
      results.length = data.getD 0 0 ∧
      ∀ i, i < data.getD 0 0 →
        results.getD i (.error .BadData) =
          (if u16at (((data.drop 2).drop (14 * i)).take 14) 1 ≠ 65535 ∨
              u16at (((data.drop 2).drop (14 * i)).take 14) 3 ≠ 65535 ∨
              u16at (((data.drop 2).drop (14 * i)).take 14) 6 ≠ 65535 then
            .error .UnsupportedFeature
          else if data.length <
                u16at (((data.drop 2).drop (14 * i)).take 14) 0 + 64 ∨
              data.length <
                u16at (((data.drop 2).drop (14 * i)).take 14) 2 + 32 ∨
              data.length <
                u16at (((data.drop 2).drop (14 * i)).take 14) 4 +
                  u16at (((data.drop 2).drop (14 * i)).take 14) 5 then
            .error .BadData
          else .ok ⟨(data.drop
              (u16at (((data.drop 2).drop (14 * i)).take 14) 0)).take 64,
            (data.drop
              (u16at (((data.drop 2).drop (14 * i)).take 14) 2)).take 32,
            (data.drop
              (u16at (((data.drop 2).drop (14 * i)).take 14) 4)).take
                (u16at (((data.drop 2).drop (14 * i)).take 14) 5)⟩) := by
  constructor
  · unfold parseResults
    rw [← parse_none_iff data]
    rcases parse_data data with _ | records <;> simp
  · intro results hres
    unfold parseResults at hres
    rcases hpd : parse_data data with _ | records
    · rw [hpd] at hres
      cases hres
    · rw [hpd] at hres
      injection hres with hres
      subst hres
      obtain ⟨hlen, hget⟩ := parse_some_char data hpd
      constructor
      · rw [List.length_map, hlen]
      · intro i hi
        have hib : i < records.length := by rw [hlen]; exact hi
        have higet : (records.map (decode_entry data)).getD i (.error .BadData) =
            decode_entry data (records.getD i []) := by
          rw [List.getD_eq_getElem (records.map (decode_entry data)) _ (by
            rw [List.length_map]; exact hib)]
          rw [List.getElem_map]
          congr 1
          rw [List.getD_eq_getElem records [] hib]
        rw [higet, hget i hi, decode_entry_char]

/-- Witness for C5 at a concrete 16-byte buffer whose single record has
zeroed instruction-index fields. -/
theorem claim_c5_parse_witness :
    (parseResults ((1 : Nat) :: 0 :: List.replicate 14 0) =
      some [.error .UnsupportedFeature]) ∧
    (([.error .UnsupportedFeature] : List (Except SigError Entry)).length =
      ((1 : Nat) :: 0 :: List.replicate 14 0).getD 0 0 ∧
      ∀ i, i < ((1 : Nat) :: 0 :: List.replicate 14 0).getD 0 0 →
        ([.error .UnsupportedFeature] : List (Except SigError Entry)).getD i (.error .BadData) =
          (if u16at (((((1 : Nat) :: 0 :: List.replicate 14 0).drop 2).drop (14 * i)).take 14) 1 ≠ 65535 ∨
              u16at (((((1 : Nat) :: 0 :: List.replicate 14 0).drop 2).drop (14 * i)).take 14) 3 ≠ 65535 ∨
              u16at (((((1 : Nat) :: 0 :: List.replicate 14 0).drop 2).drop (14 * i)).take 14) 6 ≠ 65535 then
            .error .UnsupportedFeature
          else if ((1 : Nat) :: 0 :: List.replicate 14 0).length <
                u16at (((((1 : Nat) :: 0 :: List.replicate 14 0).drop 2).drop (14 * i)).take 14) 0 + 64 ∨
              ((1 : Nat) :: 0 :: List.replicate 14 0).length <
                u16at (((((1 : Nat) :: 0 :: List.replicate 14 0).drop 2).drop (14 * i)).take 14) 2 + 32 ∨
              ((1 : Nat) :: 0 :: List.replicate 14 0).length <
                u16at (((((1 : Nat) :: 0 :: List.replicate 14 0).drop 2).drop (14 * i)).take 14) 4 +
                  u16at (((((1 : Nat) :: 0 :: List.replicate 14 0).drop 2).drop (14 * i)).take 14) 5 then
            .error .BadData
          else .ok ⟨(((1 : Nat) :: 0 :: List.replicate 14 0).drop
              (u16at (((((1 : Nat) :: 0 :: List.replicate 14 0).drop 2).drop (14 * i)).take 14) 0)).take 64,
            (((1 : Nat) :: 0 :: List.replicate 14 0).drop
              (u16at (((((1 : Nat) :: 0 :: List.replicate 14 0).drop 2).drop (14 * i)).take 14) 2)).take 32,
            (((1 : Nat) :: 0 :: List.replicate 14 0).drop
              (u16at (((((1 : Nat) :: 0 :: List.replicate 14 0).drop 2).drop (14 * i)).take 14) 4)).take
                (u16at (((((1 : Nat) :: 0 :: List.replicate 14 0).drop 2).drop (14 * i)).take 14) 5)⟩)) :=
  ⟨by decide, (claim_c5_parse ((1 : Nat) :: 0 :: List.replicate 14 0)).2
    [.error .UnsupportedFeature] (by decide)⟩
